import Mathlib

/-!
Verification of the crawl traversal engine of `scraper.py`.

The development shallowly embeds the program's URL handling (CPython's
`urllib.parse.urlparse` / `urljoin`, as used by `clean_url` and
`is_same_domain`), the BeautifulSoup queries used for link extraction, and
the frontier/visited/results loop of `scrape_website_cli`.

Modelling conventions:
* Python strings are `List Char`; Python's `str.find` / slicing / `split`
  are translated to structurally recursive list functions.
* CPython's `urlsplit` can raise `ValueError("Invalid IPv6 URL")` when the
  authority component has an unbalanced bracket; fallible parsing is
  `Except String`.  (The newer `_check_bracketed_host` and the NFKC
  `_checknetloc` checks concern exotic non-ASCII input and are not
  modelled.)
* The HTTP transport (`requests.get`) and the HTML parser proper
  (`BeautifulSoup(...)`) are external collaborators: the crawl loop is
  parameterised by a `net` function returning status/body and by a
  `parse` function producing an element tree; the tree queries
  (`find`/`find_all`) are modelled faithfully.
* The `while queue:` loop need not terminate, so the loop takes fuel and
  returns `none` when the fuel runs out before the frontier empties.
-/

namespace Scraper

/-! ## Python character classes -/

/-- Set removed by `urlsplit`'s leading strip: WHATWG C0 controls and space
(code points `0x00`–`0x20`). -/
def c0OrSpace (c : Char) : Bool := c.toNat ≤ 32

/-- Bytes removed everywhere by `urlsplit` (`_UNSAFE_URL_BYTES_TO_REMOVE`):
tab, carriage return, newline. -/
def unsafeByte (c : Char) : Bool := c = '\t' || c = '\r' || c = '\n'

/-- ASCII letter, the requirement `url[0].isascii() and url[0].isalpha()`
on the first character of a scheme. -/
def asciiAlpha (c : Char) : Bool :=
  (65 ≤ c.toNat && c.toNat ≤ 90) || (97 ≤ c.toNat && c.toNat ≤ 122)

/-- Membership in CPython's `scheme_chars` (letters, digits, `+`, `-`, `.`). -/
def schemeChar (c : Char) : Bool :=
  asciiAlpha c || (48 ≤ c.toNat && c.toNat ≤ 57) || c = '+' || c = '-' || c = '.'

/-- Delimiters ending the network-location component (`_splitnetloc` scans
for `/`, `?`, `#`). -/
def netlocDelim (c : Char) : Bool := c = '/' || c = '?' || c = '#'

/-! ## Python string primitives -/

/-- Splits a list at the first occurrence of `c`: `some (before, after)`
with `c` in neither position boundary, `none` when `c` does not occur.
Models `x in s` combined with `s.split(sep, 1)`. -/
def splitFirst (c : Char) : List Char → Option (List Char × List Char)
  | [] => none
  | x :: xs =>
    if x = c then some ([], xs)
    else (splitFirst c xs).map (fun p => (x :: p.1, p.2))

/-- Splits a list at the last occurrence of `c` (models `s.rfind(sep)`). -/
def splitLast (c : Char) (l : List Char) : Option (List Char × List Char) :=
  (splitFirst c l.reverse).map (fun p => (p.2.reverse, p.1.reverse))

/-- Python `s.split(sep)` for a single-character separator: always returns a
nonempty list, `[[]]` on empty input. -/
def pySplit (c : Char) : List Char → List (List Char)
  | [] => [[]]
  | x :: xs =>
    if x = c then [] :: pySplit c xs
    else
      match pySplit c xs with
      | h :: t => (x :: h) :: t
      | [] => [[x]]

/-- Python `s.strip(chars)` for a character predicate. -/
def pyStrip (p : Char → Bool) (l : List Char) : List Char :=
  ((l.dropWhile p).reverse.dropWhile p).reverse

/-! ## urllib.parse -/

/-- Result of `urlsplit` (scheme, netloc, path, query, fragment). -/
structure SplitRes where
  scheme : List Char
  netloc : List Char
  path : List Char
  query : List Char
  fragment : List Char
deriving DecidableEq

/-- Result of `urlparse` (`urlsplit` plus the params component split off the
last path segment). -/
structure ParseRes where
  scheme : List Char
  netloc : List Char
  path : List Char
  params : List Char
  query : List Char
  fragment : List Char
deriving DecidableEq

/-- Preprocessing done by `urlsplit` on the url argument: strip leading C0
controls and space, then remove tab/CR/LF everywhere. -/
def preprocessUrl (l : List Char) : List Char :=
  (l.dropWhile c0OrSpace).filter (fun c => !unsafeByte c)

/-- Preprocessing done by `urlsplit` on the default-scheme argument
(two-sided strip, then tab/CR/LF removal). -/
def preprocessScheme (l : List Char) : List Char :=
  (pyStrip c0OrSpace l).filter (fun c => !unsafeByte c)

/-- Scheme detection of `urlsplit`: the text before the first `:` must be
nonempty, start with an ASCII letter and consist of `scheme_chars`; the
detected scheme is lowercased.  Returns `some (scheme, remainder)`. -/
def schemeSplit (u : List Char) : Option (List Char × List Char) :=
  match u.takeWhile (fun c => c ≠ ':'), u.dropWhile (fun c => c ≠ ':') with
  | c :: cs, _ :: rest =>
    if asciiAlpha c && (c :: cs).all schemeChar then
      some ((c :: cs).map Char.toLower, rest)
    else none
  | _, _ => none

/-- CPython's unbalanced-bracket test on the netloc, the condition under
which `urlsplit` raises `ValueError("Invalid IPv6 URL")`. -/
def badBrackets (netloc : List Char) : Bool :=
  ('[' ∈ netloc && ']' ∉ netloc) || (']' ∈ netloc && '[' ∉ netloc)

/-- Scheme stage of `urlsplit`: detected scheme and remainder, or the
(preprocessed) default scheme and the whole input. -/
def schemeOrDefault (url1 ds : List Char) : List Char × List Char :=
  match schemeSplit url1 with
  | some (s, r) => (s, r)
  | none => (preprocessScheme ds, url1)

/-- Netloc stage of `urlsplit` (`_splitnetloc` after the `'//'` test). -/
def netlocSplit (rest : List Char) : List Char × List Char :=
  if rest.take 2 = ['/', '/'] then
    ((rest.drop 2).takeWhile (fun c => !netlocDelim c),
     (rest.drop 2).dropWhile (fun c => !netlocDelim c))
  else ([], rest)

/-- Fragment stage of `urlsplit`: split at the first `#`. -/
def fragSplit (l : List Char) : List Char × List Char :=
  match splitFirst '#' l with
  | some p => p
  | none => (l, [])

/-- Query stage of `urlsplit`: split at the first `?`. -/
def querySplit (l : List Char) : List Char × List Char :=
  match splitFirst '?' l with
  | some p => p
  | none => (l, [])

/-- Model of `urllib.parse.urlsplit(url, scheme)` (with `allow_fragments`
left at its default `True`).  Two validations of the library are outside
this model: the NFKC netloc check (`_checknetloc`, CPython ≥ 3.7.3, which
needs the Unicode normalization tables and rejects netlocs whose NFKC
form introduces a delimiter, e.g. `℀`) and the bracketed-host check
(`_check_bracketed_host`, CPython ≥ 3.11).  Both accept every ASCII
bracket-free authority unchanged, so the model agrees with the library
exactly on that fragment; every theorem below that concludes a
successful parse for a whole class of inputs restricts the authority of
those inputs accordingly. -/
def urlsplit (url : List Char) (defScheme : List Char := []) :
    Except String SplitRes :=
  let (scheme, rest) := schemeOrDefault (preprocessUrl url) defScheme
  let (netloc, rest2) := netlocSplit rest
  if badBrackets netloc then
    .error "Invalid IPv6 URL"
  else
    let (rest3, fragment) := fragSplit rest2
    let (path, query) := querySplit rest3
    .ok ⟨scheme, netloc, path, query, fragment⟩

/-- Schemes for which `urlparse` separates a params component
(CPython's `uses_params`). -/
def usesParams : List (List Char) :=
  [[], 'f' :: 't' :: 'p' :: [], 'h' :: 'd' :: 'l' :: [],
   'p' :: 'r' :: 'o' :: 's' :: 'p' :: 'e' :: 'r' :: 'o' :: [], 'h' :: 't' :: 't' :: 'p' :: [],
   'i' :: 'm' :: 'a' :: 'p' :: [], 'h' :: 't' :: 't' :: 'p' :: 's' :: [],
   's' :: 'h' :: 't' :: 't' :: 'p' :: [], 'r' :: 't' :: 's' :: 'p' :: [],
   'r' :: 't' :: 's' :: 'p' :: 'u' :: [], 's' :: 'i' :: 'p' :: [], 's' :: 'i' :: 'p' :: 's' :: [],
   'm' :: 'm' :: 's' :: [], 's' :: 'f' :: 't' :: 'p' :: [], 't' :: 'e' :: 'l' :: []]

/-- Schemes supporting relative resolution (CPython's `uses_relative`). -/
def usesRelative : List (List Char) :=
  [[], 'f' :: 't' :: 'p' :: [], 'h' :: 't' :: 't' :: 'p' :: [], 'g' :: 'o' :: 'p' :: 'h' :: 'e' :: 'r' :: [],
   'n' :: 'n' :: 't' :: 'p' :: [], 'i' :: 'm' :: 'a' :: 'p' :: [], 'w' :: 'a' :: 'i' :: 's' :: [],
   'f' :: 'i' :: 'l' :: 'e' :: [], 'h' :: 't' :: 't' :: 'p' :: 's' :: [], 's' :: 'h' :: 't' :: 't' :: 'p' :: [],
   'm' :: 'm' :: 's' :: [], 'p' :: 'r' :: 'o' :: 's' :: 'p' :: 'e' :: 'r' :: 'o' :: [],
   'r' :: 't' :: 's' :: 'p' :: [], 'r' :: 't' :: 's' :: 'p' :: 'u' :: [], 's' :: 'f' :: 't' :: 'p' :: [],
   's' :: 'v' :: 'n' :: [], 's' :: 'v' :: 'n' :: '+' :: 's' :: 's' :: 'h' :: [],
   'w' :: 's' :: [], 'w' :: 's' :: 's' :: []]

/-- Schemes carrying a network location (CPython's `uses_netloc`). -/
def usesNetloc : List (List Char) :=
  [[], 'f' :: 't' :: 'p' :: [], 'h' :: 't' :: 't' :: 'p' :: [], 'g' :: 'o' :: 'p' :: 'h' :: 'e' :: 'r' :: [],
   'n' :: 'n' :: 't' :: 'p' :: [], 't' :: 'e' :: 'l' :: 'n' :: 'e' :: 't' :: [], 'i' :: 'm' :: 'a' :: 'p' :: [],
   'w' :: 'a' :: 'i' :: 's' :: [], 'f' :: 'i' :: 'l' :: 'e' :: [], 'm' :: 'm' :: 's' :: [],
   'h' :: 't' :: 't' :: 'p' :: 's' :: [], 's' :: 'h' :: 't' :: 't' :: 'p' :: [],
   's' :: 'n' :: 'e' :: 'w' :: 's' :: [], 'p' :: 'r' :: 'o' :: 's' :: 'p' :: 'e' :: 'r' :: 'o' :: [],
   'r' :: 't' :: 's' :: 'p' :: [], 'r' :: 't' :: 's' :: 'p' :: 'u' :: [], 'r' :: 's' :: 'y' :: 'n' :: 'c' :: [],
   's' :: 'v' :: 'n' :: [], 's' :: 'v' :: 'n' :: '+' :: 's' :: 's' :: 'h' :: [], 's' :: 'f' :: 't' :: 'p' :: [],
   'n' :: 'f' :: 's' :: [], 'g' :: 'i' :: 't' :: [], 'g' :: 'i' :: 't' :: '+' :: 's' :: 's' :: 'h' :: [],
   'w' :: 's' :: [], 'w' :: 's' :: 's' :: []]

/-- CPython's `_splitparams`: separate `;params` from the last path
segment (the search for `;` starts at the last `/` when one is present). -/
def splitparams (url : List Char) : List Char × List Char :=
  match splitLast '/' url with
  | some (before, after) =>
    match splitFirst ';' after with
    | some (a, b) => (before ++ '/' :: a, b)
    | none => (url, [])
  | none =>
    match splitFirst ';' url with
    | some (a, b) => (a, b)
    | none => (url, [])

/-- Model of `urllib.parse.urlparse(url, scheme)`. -/
def urlparse (url : List Char) (defScheme : List Char := []) :
    Except String ParseRes :=
  (urlsplit url defScheme).map fun sr =>
    if usesParams.contains sr.scheme ∧ ';' ∈ sr.path then
      let (p, prm) := splitparams sr.path
      ⟨sr.scheme, sr.netloc, p, prm, sr.query, sr.fragment⟩
    else
      ⟨sr.scheme, sr.netloc, sr.path, [], sr.query, sr.fragment⟩

/-- Model of `urllib.parse.urlunsplit`. -/
def urlunsplit (scheme netloc url query fragment : List Char) : List Char :=
  let url :=
    if netloc ≠ [] ∨ (url ≠ [] ∧ url.take 2 = ['/', '/']) then
      let url := if url ≠ [] ∧ url.take 1 ≠ ['/'] then '/' :: url else url
      '/' :: '/' :: (netloc ++ url)
    else url
  let url := if scheme ≠ [] then scheme ++ ':' :: url else url
  let url := if query ≠ [] then url ++ '?' :: query else url
  if fragment ≠ [] then url ++ '#' :: fragment else url

/-- Model of `urllib.parse.urlunparse`. -/
def urlunparse (scheme netloc url params query fragment : List Char) :
    List Char :=
  if params ≠ [] then
    urlunsplit scheme netloc (url ++ ';' :: params) query fragment
  else
    urlunsplit scheme netloc url query fragment

/-- Python slice assignment `segments[1:-1] = filter(None, segments[1:-1])`:
drop empty strings, keeping the first and last element. -/
def keepLastFilterEmpty : List (List Char) → List (List Char)
  | [] => []
  | [x] => [x]
  | x :: xs =>
    if x = [] then keepLastFilterEmpty xs else x :: keepLastFilterEmpty xs

/-- Filters the interior of the segment list (first and last kept as-is). -/
def filterInterior : List (List Char) → List (List Char)
  | [] => []
  | a :: rest => a :: keepLastFilterEmpty rest

/-- The `..` / `.` resolution loop of `urljoin`. -/
def resolveSegments (segments : List (List Char)) : List (List Char) :=
  segments.foldl
    (fun acc seg =>
      if seg = '.' :: '.' :: [] then acc.dropLast
      else if seg = '.' :: [] then acc
      else acc ++ [seg])
    []

/-- Model of `urllib.parse.urljoin(base, url)`. -/
def urljoin (base url : List Char) : Except String (List Char) :=
  if base = [] then .ok url
  else if url = [] then .ok base
  else do
    let b ← urlparse base []
    let t ← urlparse url b.scheme
    if t.scheme ≠ b.scheme ∨ ¬ usesRelative.contains t.scheme then
      return url
    else
      let netloc :=
        if usesNetloc.contains t.scheme then
          if t.netloc ≠ [] then t.netloc else b.netloc
        else t.netloc
      if usesNetloc.contains t.scheme ∧ t.netloc ≠ [] then
        return urlunparse t.scheme t.netloc t.path t.params t.query t.fragment
      else if t.path = [] ∧ t.params = [] then
        let query := if t.query = [] then b.query else t.query
        return urlunparse t.scheme netloc b.path b.params query t.fragment
      else
        let baseParts := pySplit '/' b.path
        let baseParts :=
          if baseParts.getLast? ≠ some [] then baseParts.dropLast else baseParts
        let segments :=
          if t.path.take 1 = ['/'] then pySplit '/' t.path
          else filterInterior (baseParts ++ pySplit '/' t.path)
        let resolved := resolveSegments segments
        let resolved :=
          if segments.getLast? = some ('.' :: []) ∨
             segments.getLast? = some ('.' :: '.' :: []) then
            resolved ++ [[]]
          else resolved
        let joined := List.intercalate ['/'] resolved
        let path := if joined = [] then ['/'] else joined
        return urlunparse t.scheme netloc path t.params t.query t.fragment

/-! ## scraper.py: URL helpers -/

/-- `is_same_domain(url, domain)`: true iff `urlparse(url).netloc == domain`.
Propagates the parser's `ValueError`. -/
def is_same_domain (url domain : List Char) : Except String Bool :=
  (urlparse url []).map fun parsed => decide (parsed.netloc = domain)

/-- `clean_url(url)`: rebuild as `scheme + "://" + netloc + path`, dropping
query and fragment (and, through `urlparse`, the params component). -/
def clean_url (url : List Char) : Except String (List Char) :=
  (urlparse url []).map fun parsed =>
    parsed.scheme ++ ':' :: '/' :: '/' :: (parsed.netloc ++ parsed.path)

/-- Reassembly done by `clean_url` from parsed components. -/
def cleanOf (p : ParseRes) : List Char :=
  p.scheme ++ ':' :: '/' :: '/' :: (p.netloc ++ p.path)

/-! ## HTML documents and link extraction -/

/-- An element node of the parsed document: tag name, attributes,
children.  (Text nodes carry no links and are irrelevant to the queries
the program performs.) -/
inductive Node : Type where
  | elem : String → List (String × String) → List Node → Node

/-- Tag name of a node. -/
def Node.tag : Node → String
  | .elem t _ _ => t

/-- Attribute list of a node. -/
def Node.attrs : Node → List (String × String)
  | .elem _ a _ => a

/-- Children of a node. -/
def Node.children : Node → List Node
  | .elem _ _ c => c

/-- Attribute lookup, first binding wins (Python `tag.get(name)`). -/
def Node.attr (n : Node) (name : String) : Option String :=
  (n.attrs.find? (fun p => p.1 = name)).map (fun p => p.2)

/-- Matcher for `soup.find("div", id="navigationbar")`. -/
def isNavDiv (n : Node) : Bool :=
  n.tag = "div" && n.attr "id" = some "navigationbar"

/-- Matcher for `find_all("a", href=True)`. -/
def isAnchorWithHref (n : Node) : Bool :=
  n.tag = "a" && (n.attr "href").isSome

mutual
/-- Depth-first pre-order search of a node and its descendants for the
first match (BeautifulSoup `find`). -/
def findFirstNode (p : Node → Bool) : Node → Option Node
  | .elem t a cs =>
    if p (.elem t a cs) then some (.elem t a cs) else findFirstNodes p cs

/-- `findFirstNode` over a forest, in document order. -/
def findFirstNodes (p : Node → Bool) : List Node → Option Node
  | [] => none
  | n :: ns =>
    match findFirstNode p n with
    | some r => some r
    | none => findFirstNodes p ns
end

mutual
/-- All matching nodes of a node and its descendants in document order
(BeautifulSoup `find_all`). -/
def findAllNode (p : Node → Bool) : Node → List Node
  | .elem t a cs =>
    (if p (.elem t a cs) then [Node.elem t a cs] else []) ++ findAllNodes p cs

/-- `findAllNode` over a forest, in document order. -/
def findAllNodes (p : Node → Bool) : List Node → List Node
  | [] => []
  | n :: ns => findAllNode p n ++ findAllNodes p ns
end

/-- The href values of the `a[href]` tags of a forest
(`[link.get("href") for link in link_tags]`). -/
def hrefsOf (ns : List Node) : List String :=
  (findAllNodes isAnchorWithHref ns).map (fun n => (n.attr "href").getD "")

/-- Link extraction with the scope policy of `scrape_website_cli`:
with `restrict_navbar` only descendants of the first `div#navigationbar`
are searched (no such div: no links); otherwise the entire document. -/
def extractLinks (restrict_navbar : Bool) (doc : List Node) : List String :=
  if restrict_navbar then
    match findFirstNodes isNavDiv doc with
    | some nav => hrefsOf nav.children
    | none => []
  else hrefsOf doc

/-! ## The crawl loop -/

/-- Outcome of `requests.get`: a transport failure
(`requests.RequestException`) or a response with status code and body. -/
inductive FetchOutcome : Type where
  | failure : FetchOutcome
  | response : Nat → String → FetchOutcome

/-- A record appended to `scraped_pages`. -/
structure Page where
  url : List Char
  html : String
deriving DecidableEq

/-- State of the crawl loop.  `queue`, `visited` and `pages` are the
program's variables (`visited` is a Python `set`, modelled as the list of
its insertions); `fetched` and `enqueued` are ghost histories recording
every URL passed to `requests.get` and every URL appended to the queue. -/
structure CrawlSt where
  queue : List (List Char)
  visited : List (List Char)
  pages : List Page
  fetched : List (List Char)
  enqueued : List (List Char)
deriving DecidableEq

/-- The `for link in link_tags:` loop: resolve each href against the
current URL, normalize, and append to the queue when it passes the
domain guard and is not in `visited`.  Uncaught `ValueError` propagates. -/
def processLinks (domain current : List Char) (visited : List (List Char)) :
    List (List Char) → List (List Char) → List String →
    Except String (List (List Char) × List (List Char))
  | queue, enq, [] => .ok (queue, enq)
  | queue, enq, href :: rest => do
    let abs ← urljoin current href.toList
    let absC ← clean_url abs
    let sd ← is_same_domain absC domain
    if sd ∧ absC ∉ visited then
      processLinks domain current visited (queue ++ [absC]) (enq ++ [absC]) rest
    else
      processLinks domain current visited queue enq rest

/-- One iteration of the `while queue:` body.  On an empty queue the state
is returned unchanged (the loop has exited). -/
def crawlStep (net : List Char → FetchOutcome) (parse : String → List Node)
    (restrict_navbar : Bool) (domain : List Char) (st : CrawlSt) :
    Except String CrawlSt :=
  match st.queue with
  | [] => .ok st
  | u :: rest =>
    match clean_url u with
    | .error e => .error e
    | .ok current =>
      if current ∈ st.visited then
        .ok { st with queue := rest }
      else
        let visited' := current :: st.visited
        let fetched' := st.fetched ++ [current]
        match net current with
        | .failure =>
          .ok { st with queue := rest, visited := visited', fetched := fetched' }
        | .response status text =>
          if status ≠ 200 then
            .ok { st with queue := rest, visited := visited', fetched := fetched' }
          else
            let pages' := st.pages ++ [⟨current, text⟩]
            let links := extractLinks restrict_navbar (parse text)
            match processLinks domain current visited' rest st.enqueued links with
            | .error e => .error e
            | .ok (queue', enq') =>
              .ok ⟨queue', visited', pages', fetched', enq'⟩

/-- The `while queue:` loop, driven by fuel.  Returns `none` when the fuel
is exhausted before the frontier empties, `some (.error e)` when an
uncaught `ValueError` aborts the process, and `some (.ok st)` on a
completed run. -/
def crawlLoop (net : List Char → FetchOutcome) (parse : String → List Node)
    (restrict_navbar : Bool) (domain : List Char) :
    Nat → CrawlSt → Option (Except String CrawlSt)
  | _, ⟨[], v, p, f, e⟩ => some (.ok ⟨[], v, p, f, e⟩)
  | 0, _ => none
  | fuel + 1, st =>
    match crawlStep net parse restrict_navbar domain st with
    | .error e => some (.error e)
    | .ok st' => crawlLoop net parse restrict_navbar domain fuel st'

/-- The crawl of `scrape_website_cli`: derive the domain from the start
URL, seed the queue with the raw start URL, and run the loop.  The final
JSON write and the logging are external I/O and outside the model. -/
def scrape_website_cli (net : List Char → FetchOutcome)
    (parse : String → List Node) (start_url : List Char)
    (restrict_navbar : Bool) (fuel : Nat) : Option (Except String CrawlSt) :=
  match urlparse start_url [] with
  | .error e => some (.error e)
  | .ok p =>
    crawlLoop net parse restrict_navbar p.netloc fuel ⟨[start_url], [], [], [], []⟩

/-! ## Concrete test site

The end-to-end scenario of the specification: `example.test` serves `/`
whose navigation bar links to `/a` and `/b`; `/a`'s navigation bar links
back to `/` and off-domain to `https://other.test/x`; `/b` has no
navigation bar. -/

/-- An anchor element with an `href` attribute. -/
def anchor (href : String) : Node := .elem "a" [("href", href)] []

/-- Document of the root page. -/
def rootDoc : List Node :=
  [.elem "html" []
    [.elem "div" [("id", "navigationbar")] [anchor "/a", anchor "/b"]]]

/-- Document of `/a`. -/
def pageADoc : List Node :=
  [.elem "html" []
    [.elem "div" [("id", "navigationbar")]
      [anchor "/", anchor "https://other.test/x"]]]

/-- Document of `/b`: no `div#navigationbar` at all. -/
def pageBDoc : List Node := [.elem "html" [] [.elem "p" [] []]]

/-- The external HTML parser for the test site: bodies are opaque tokens
mapped to their parsed documents. -/
def siteParse (body : String) : List Node :=
  if body = "ROOT" then rootDoc
  else if body = "PAGEA" then pageADoc
  else if body = "PAGEB" then pageBDoc
  else []

/-- The external transport for the test site. -/
def siteNet (u : List Char) : FetchOutcome :=
  if u = "https://example.test/".toList then .response 200 "ROOT"
  else if u = "https://example.test/a".toList then .response 200 "PAGEA"
  else if u = "https://example.test/b".toList then .response 200 "PAGEB"
  else .failure

/-- Variant site for the failure-handling scenario: the navigation bar of
`/` links to `/x` and `/y`; `/x` answers 404, `/y` succeeds. -/
def site2Parse (body : String) : List Node :=
  if body = "ROOT2" then
    [.elem "html" []
      [.elem "div" [("id", "navigationbar")] [anchor "/x", anchor "/y"]]]
  else []

/-- Transport of the failure-handling scenario. -/
def site2Net (u : List Char) : FetchOutcome :=
  if u = "https://example.test/".toList then .response 200 "ROOT2"
  else if u = "https://example.test/x".toList then .response 404 "NOTFOUND"
  else if u = "https://example.test/y".toList then .response 200 "PAGEY"
  else .failure

/-! ## Predicates for the specification statements -/

/-- A wellformed scheme component: nonempty, ASCII letter first, then
`scheme_chars` only. -/
def validSchemeStr : List Char → Bool
  | [] => false
  | c :: cs => asciiAlpha c && (c :: cs).all schemeChar

/-- Characters admitted in the non-authority part of a syntactically valid
URL for our purposes: no C0 controls or space, no stray brackets. -/
def urlChar (c : Char) : Bool := !c0OrSpace c && c ≠ '[' && c ≠ ']'

/-- ASCII code point. -/
def asciiChar (c : Char) : Bool := decide (c.toNat < 128)

/-- Optional query and fragment suffix of a URL: nothing, `?query`,
`#fragment`, or `?query#fragment`. -/
def qfSuffix : Option (List Char) → Option (List Char) → List Char
  | none, none => []
  | some q, none => '?' :: q
  | none, some f => '#' :: f
  | some q, some f => '?' :: q ++ '#' :: f

/-- Syntactically valid absolute URL (the RFC 3986 shape relevant here): a
wellformed scheme before the first colon; if an authority follows, it is
an ASCII `host[:port]` region without brackets, and the remainder is
ASCII free of stray brackets and control characters; without an
authority, the remainder likewise.  RFC 3986 URL strings are ASCII and a
bracketed authority is an IP literal, which this development does not
treat; on this domain the library's NFKC netloc check and bracketed-host
check accept every parse untouched, so the embedded `urlsplit` agrees
with the library exactly. -/
def validAbsUrl (u : List Char) : Bool :=
  match splitFirst ':' u with
  | none => false
  | some (s, r) =>
    validSchemeStr s &&
    (if r.take 2 = ['/', '/'] then
      let n := (r.drop 2).takeWhile (fun c => !netlocDelim c)
      let rest := (r.drop 2).dropWhile (fun c => !netlocDelim c)
      !badBrackets n && n.all (fun c => !c0OrSpace c) && rest.all urlChar &&
        n.all (fun c => asciiChar c && c ≠ '[' && c ≠ ']') && rest.all asciiChar
    else r.all urlChar && r.all asciiChar)

/-- A string in the image of a successful `clean_url`. -/
def IsCleanOutput (u : List Char) : Prop :=
  ∃ raw, clean_url raw = .ok u

/-- A default-scheme argument as `urljoin` passes it: empty, or a
lowercased wellformed scheme. -/
def SchemeLike (s : List Char) : Prop :=
  s = [] ∨ (validSchemeStr s = true ∧ s.map Char.toLower = s)

/-- Structural facts holding of every result of a successful `urlparse`
with an empty default scheme. -/
structure ParseShape (p : ParseRes) : Prop where
  scheme_ok : SchemeLike p.scheme
  netloc_ok : ∀ c ∈ p.netloc, netlocDelim c = false
  netloc_brk : badBrackets p.netloc = false
  path_hash : '#' ∉ p.path
  path_query : '?' ∉ p.path
  path_shape : p.netloc ≠ [] → p.path = [] ∨ p.path.take 1 = ['/']
  params_ok : usesParams.contains p.scheme = true → ';' ∈ p.path →
    ∃ a b, p.path = a ++ '/' :: b ∧ ';' ∉ b ∧ '/' ∉ b
  clean_safe : ∀ c ∈ p.netloc ++ p.path, unsafeByte c = false

/-- A frontier entry admitted by the guard: a fixed point of `clean_url`
that parses to the crawl domain. -/
def GuardedUrl (domain q : List Char) : Prop :=
  clean_url q = .ok q ∧ is_same_domain q domain = .ok true

/-- Exactly-once bookkeeping invariant of the crawl state. -/
def StInv (st : CrawlSt) : Prop :=
  st.fetched.Nodup ∧ (∀ u ∈ st.fetched, u ∈ st.visited) ∧
  (st.pages.map Page.url).Nodup ∧ (∀ p ∈ st.pages, p.url ∈ st.visited)

/-- Normalization invariant of the crawl state: every visited URL and
every recorded URL is a `clean_url` output. -/
def CleanInv (st : CrawlSt) : Prop :=
  (∀ u ∈ st.visited, IsCleanOutput u) ∧ (∀ p ∈ st.pages, IsCleanOutput p.url)

/-- Domain-containment invariant of the crawl state. -/
def DomInv (domain start_url : List Char) (st : CrawlSt) : Prop :=
  (∀ q ∈ st.queue, q = start_url ∨ GuardedUrl domain q) ∧
  (∀ q ∈ st.enqueued, is_same_domain q domain = .ok true) ∧
  (∀ u ∈ st.fetched,
    clean_url start_url = .ok u ∨
    ∃ p, urlparse u [] = .ok p ∧ p.netloc = domain)

mutual
/-- A node together with all its descendants, in document order. -/
def subnodes : Node → List Node
  | .elem t a cs => Node.elem t a cs :: subnodesF cs

/-- `subnodes` over a forest. -/
def subnodesF : List Node → List Node
  | [] => []
  | n :: ns => subnodes n ++ subnodesF ns
end

/-! # Theorems

## Character lemmas -/

theorem char_toNat_ofNat {n : Nat} (h : n < 55296) : (Char.ofNat n).toNat = n := by
  rw [Char.ofNat, dif_pos (Or.inl h)]
  rfl

theorem toLower_toNat_of_upper {c : Char} (h1 : 65 ≤ c.toNat) (h2 : c.toNat ≤ 90) :
    (Char.toLower c).toNat = c.toNat + 32 := by
  rw [Char.toLower, if_pos ⟨h1, h2⟩]
  exact char_toNat_ofNat (by omega)

theorem toLower_eq_of_not_upper {c : Char} (h : ¬(65 ≤ c.toNat ∧ c.toNat ≤ 90)) :
    Char.toLower c = c := by
  rw [Char.toLower, if_neg h]

theorem toLower_toLower (c : Char) : (Char.toLower c).toLower = Char.toLower c := by
  by_cases h : 65 ≤ c.toNat ∧ c.toNat ≤ 90
  · have h2 := toLower_toNat_of_upper h.1 h.2
    exact toLower_eq_of_not_upper (by omega)
  · rw [toLower_eq_of_not_upper h]
    exact toLower_eq_of_not_upper h

theorem asciiAlpha_iff {c : Char} : asciiAlpha c = true ↔
    (65 ≤ c.toNat ∧ c.toNat ≤ 90) ∨ (97 ≤ c.toNat ∧ c.toNat ≤ 122) := by
  simp [asciiAlpha]

theorem schemeChar_of_asciiAlpha {c : Char} (h : asciiAlpha c = true) :
    schemeChar c = true := by
  simp [schemeChar, h]

theorem asciiAlpha_toLower {c : Char} (h : asciiAlpha c = true) :
    asciiAlpha (Char.toLower c) = true := by
  rcases asciiAlpha_iff.mp h with h1 | h1
  · have h2 := toLower_toNat_of_upper h1.1 h1.2
    exact asciiAlpha_iff.mpr (Or.inr (by omega))
  · rw [toLower_eq_of_not_upper (by omega)]
    exact h

theorem schemeChar_toLower {c : Char} (h : schemeChar c = true) :
    schemeChar (Char.toLower c) = true := by
  by_cases hu : 65 ≤ c.toNat ∧ c.toNat ≤ 90
  · exact schemeChar_of_asciiAlpha (asciiAlpha_toLower (asciiAlpha_iff.mpr (Or.inl hu)))
  · rw [toLower_eq_of_not_upper hu]
    exact h

theorem schemeChar_ne {c d : Char} (h : schemeChar c = true)
    (hd : schemeChar d = false) : c ≠ d := by
  intro he
  subst he
  simp [h] at hd

theorem unsafe_c0 {c : Char} (h : unsafeByte c = true) : c0OrSpace c = true := by
  simp [unsafeByte] at h
  rcases h with (h | h) | h <;> subst h <;> decide

theorem schemeChar_toNat_lb {c : Char} (h : schemeChar c = true) :
    42 < c.toNat := by
  simp only [schemeChar, asciiAlpha, Bool.or_eq_true, Bool.and_eq_true,
    decide_eq_true_eq] at h
  rcases h with ((((h | h) | h) | h) | h) | h
  · omega
  · omega
  · omega
  all_goals subst h
  all_goals decide

theorem schemeChar_not_c0 {c : Char} (h : schemeChar c = true) :
    c0OrSpace c = false := by
  have := schemeChar_toNat_lb h
  simp [c0OrSpace]
  omega

theorem schemeChar_not_unsafe {c : Char} (h : schemeChar c = true) :
    unsafeByte c = false := by
  cases hu : unsafeByte c
  · rfl
  · have := unsafe_c0 hu
    rw [schemeChar_not_c0 h] at this
    exact this.symm ▸ rfl

/-! ## Split-primitive lemmas -/

theorem splitFirst_eq_none {c : Char} {l : List Char} :
    splitFirst c l = none ↔ c ∉ l := by
  induction l with
  | nil => simp [splitFirst]
  | cons x xs ih =>
    by_cases hx : x = c
    · subst hx; simp [splitFirst]
    · simp [splitFirst, hx, ih, Ne.symm hx]

theorem splitFirst_eq_some {c : Char} : ∀ {l a b : List Char},
    splitFirst c l = some (a, b) → l = a ++ c :: b ∧ c ∉ a := by
  intro l
  induction l with
  | nil => intro a b h; simp [splitFirst] at h
  | cons x xs ih =>
    intro a b h
    by_cases hx : x = c
    · subst hx
      simp [splitFirst] at h
      obtain ⟨rfl, rfl⟩ := h
      simp
    · rw [splitFirst, if_neg hx, Option.map_eq_some'] at h
      obtain ⟨⟨p1, p2⟩, hp, he⟩ := h
      obtain ⟨rfl, rfl⟩ := Prod.mk.injEq .. ▸ he
      obtain ⟨rfl, hna⟩ := ih hp
      exact ⟨rfl, by simp [hna, Ne.symm hx]⟩

theorem splitFirst_append {c : Char} {a : List Char} (b : List Char) (h : c ∉ a) :
    splitFirst c (a ++ c :: b) = some (a, b) := by
  induction a with
  | nil => simp [splitFirst]
  | cons x xs ih =>
    have hx : x ≠ c := fun he => h (by simp [he])
    have hxs : c ∉ xs := fun hm => h (by simp [hm])
    rw [List.cons_append, splitFirst, if_neg hx, ih hxs]
    rfl

theorem splitLast_eq_none {c : Char} {l : List Char} :
    splitLast c l = none ↔ c ∉ l := by
  rw [splitLast, Option.map_eq_none', splitFirst_eq_none, List.mem_reverse]

theorem splitLast_eq_some {c : Char} {l a b : List Char}
    (h : splitLast c l = some (a, b)) : l = a ++ c :: b ∧ c ∉ b := by
  rw [splitLast, Option.map_eq_some'] at h
  obtain ⟨⟨p1, p2⟩, hp, he⟩ := h
  obtain ⟨rfl, rfl⟩ := Prod.mk.injEq .. ▸ he
  obtain ⟨hrev, hna⟩ := splitFirst_eq_some hp
  constructor
  · have := congrArg List.reverse hrev
    simpa using this
  · simpa using hna

theorem splitLast_append {c : Char} (a : List Char) {b : List Char} (h : c ∉ b) :
    splitLast c (a ++ c :: b) = some (a, b) := by
  have hrev : (a ++ c :: b).reverse = b.reverse ++ c :: a.reverse := by
    simp
  rw [splitLast, hrev, splitFirst_append a.reverse (by simpa using h)]
  simp

/-! ## Misc inversion helpers -/

theorem exceptMap_ok {α β : Type} {e : Except String α} {f : α → β} {b : β}
    (h : e.map f = .ok b) : ∃ a, e = .ok a ∧ f a = b := by
  cases e with
  | error x => simp [Except.map] at h
  | ok a =>
    refine ⟨a, rfl, ?_⟩
    simpa [Except.map] using h

theorem dropWhile_head_not {p : Char → Bool} {l xs : List Char} {x : Char}
    (h : l.dropWhile p = x :: xs) : p x = false := by
  induction l with
  | nil => simp at h
  | cons y ys ih =>
    by_cases hy : p y
    · rw [List.dropWhile_cons_of_pos hy] at h
      exact ih h
    · rw [List.dropWhile_cons_of_neg hy] at h
      cases h
      exact Bool.not_eq_true _ ▸ hy

theorem dropWhile_eq_self_of_head {p : Char → Bool} {l : List Char}
    (h : ∀ c, l.head? = some c → p c = false) : l.dropWhile p = l := by
  cases l with
  | nil => rfl
  | cons x xs =>
    rw [List.dropWhile_cons_of_neg]
    simp [h x rfl]

/-- No-op characterization of `preprocessUrl`. -/
theorem preprocessUrl_eq_self {l : List Char}
    (h0 : ∀ c, l.head? = some c → c0OrSpace c = false)
    (h1 : ∀ c ∈ l, unsafeByte c = false) : preprocessUrl l = l := by
  rw [preprocessUrl, dropWhile_eq_self_of_head h0, List.filter_eq_self.mpr]
  intro a ha
  simp [h1 a ha]

theorem splitparams_noop {path : List Char}
    (h : ∃ a b, path = a ++ '/' :: b ∧ ';' ∉ b ∧ '/' ∉ b) :
    splitparams path = (path, []) := by
  obtain ⟨a, b, rfl, hsb, hfb⟩ := h
  simp only [splitparams, splitLast_append a hfb, splitFirst_eq_none.mpr hsb]

theorem splitparams_subset {l : List Char} : ∀ c ∈ (splitparams l).1, c ∈ l := by
  intro c hc
  rcases hl : splitLast '/' l with _ | ⟨before, after⟩
  · rcases hf : splitFirst ';' l with _ | ⟨x, y⟩
    · simp only [splitparams, hl, hf] at hc
      exact hc
    · obtain ⟨rfl, -⟩ := splitFirst_eq_some hf
      simp only [splitparams, hl, hf] at hc
      simp at hc ⊢
      exact Or.inl hc
  · obtain ⟨heq, hna⟩ := splitLast_eq_some hl
    subst heq
    rcases hf : splitFirst ';' after with _ | ⟨x, y⟩
    · simp only [splitparams, hl, hf] at hc
      exact hc
    · obtain ⟨heq2, -⟩ := splitFirst_eq_some hf
      subst heq2
      simp only [splitparams, hl, hf] at hc
      simp at hc ⊢
      rcases hc with hc | hc | hc
      · exact Or.inl hc
      · exact Or.inr (Or.inl hc)
      · exact Or.inr (Or.inr (Or.inl hc))

theorem splitparams_decomp {l : List Char} (h : ';' ∈ l) :
    (∃ a b, (splitparams l).1 = a ++ '/' :: b ∧ ';' ∉ b ∧ '/' ∉ b) ∨
    (';' ∉ (splitparams l).1 ∧ '/' ∉ (splitparams l).1) := by
  rcases hl : splitLast '/' l with _ | ⟨before, after⟩
  · rcases hf : splitFirst ';' l with _ | ⟨x, y⟩
    · exact absurd h (splitFirst_eq_none.mp hf)
    · right
      obtain ⟨heq, hna⟩ := splitFirst_eq_some hf
      have hslash := splitLast_eq_none.mp hl
      simp only [splitparams, hl, hf]
      constructor
      · simpa using hna
      · intro hx
        exact hslash (heq ▸ by simp [hx])
  · obtain ⟨heq, hna⟩ := splitLast_eq_some hl
    rcases hf : splitFirst ';' after with _ | ⟨x, y⟩
    · left
      simp only [splitparams, hl, hf]
      exact ⟨before, after, heq, splitFirst_eq_none.mp hf, hna⟩
    · left
      obtain ⟨heq2, hnx⟩ := splitFirst_eq_some hf
      simp only [splitparams, hl, hf]
      refine ⟨before, x, rfl, hnx, fun hx => hna (heq2 ▸ by simp [hx])⟩

/-! ## Scheme-detection lemmas -/

theorem schemeSplit_append {s r : List Char} (hs : validSchemeStr s = true) :
    schemeSplit (s ++ ':' :: r) = some (s.map Char.toLower, r) := by
  cases s with
  | nil => simp [validSchemeStr] at hs
  | cons c cs =>
    rw [validSchemeStr, Bool.and_eq_true] at hs
    have hcolon : schemeChar ':' = false := by decide
    have hne : ∀ a ∈ c :: cs, (fun x => decide (x ≠ ':')) a = true := by
      intro a ha
      have hsc : schemeChar a = true := List.all_eq_true.mp hs.2 a ha
      exact decide_eq_true (schemeChar_ne hsc hcolon)
    have htake : ((c :: cs) ++ ':' :: r).takeWhile (fun x => decide (x ≠ ':')) =
        c :: cs := by
      rw [List.takeWhile_append_of_pos hne]
      simp
    have hdrop : ((c :: cs) ++ ':' :: r).dropWhile (fun x => decide (x ≠ ':')) =
        ':' :: r := by
      rw [List.dropWhile_append_of_pos hne]
      simp
    rw [schemeSplit, htake, hdrop]
    simp [hs.1, hs.2]

theorem schemeSplit_none_no_colon {u : List Char} (h : ':' ∉ u) :
    schemeSplit u = none := by
  cases u with
  | nil => rfl
  | cons x xs =>
    have hx : x ≠ ':' := fun he => h (by simp [he])
    have hxs : ':' ∉ xs := fun hm => h (by simp [hm])
    have hdrop : (x :: xs).dropWhile (fun c => decide (c ≠ ':')) = [] := by
      rw [List.dropWhile_eq_nil_iff]
      intro a ha
      have : a ≠ ':' := by
        rcases List.mem_cons.mp ha with rfl | ha'
        · exact hx
        · exact fun he => hxs (he ▸ ha')
      simp [this]
    rw [schemeSplit, hdrop]
    rcases htake : (x :: xs).takeWhile (fun c => decide (c ≠ ':')) with _ | ⟨a, as⟩ <;> rfl

theorem schemeSplit_none_head_colon {r : List Char} :
    schemeSplit (':' :: r) = none := by
  rw [schemeSplit]
  have htake : (':' :: r).takeWhile (fun c => decide (c ≠ ':')) = [] := by
    simp
  rw [htake]

theorem schemeSplit_some {u s r : List Char} (h : schemeSplit u = some (s, r)) :
    validSchemeStr s = true ∧ s.map Char.toLower = s ∧
    ∃ pre, u = pre ++ ':' :: r := by
  rcases htake : u.takeWhile (fun c => decide (c ≠ ':')) with _ | ⟨c, cs⟩
  · have : schemeSplit u = none := by
      rw [schemeSplit, htake]
    rw [this] at h
    cases h
  · rcases hdrop : u.dropWhile (fun c => decide (c ≠ ':')) with _ | ⟨d, rest⟩
    · have : schemeSplit u = none := by
        rw [schemeSplit, htake, hdrop]
      rw [this] at h
      cases h
    · have hsplit : schemeSplit u =
          if (asciiAlpha c && (c :: cs).all schemeChar) = true then
            some ((c :: cs).map Char.toLower, rest)
          else none := by
        rw [schemeSplit, htake, hdrop]
      rw [hsplit] at h
      by_cases hcond : (asciiAlpha c && (c :: cs).all schemeChar) = true
      · rw [if_pos hcond] at h
        injection h with h'
        injection h' with h1 h2
        subst h1
        subst h2
        rw [Bool.and_eq_true] at hcond
        refine ⟨?_, ?_, c :: cs, ?_⟩
        · rw [List.map_cons, validSchemeStr, Bool.and_eq_true]
          constructor
          · exact asciiAlpha_toLower hcond.1
          · rw [← List.map_cons, List.all_eq_true]
            intro a ha
            obtain ⟨b, hb, rfl⟩ := List.mem_map.mp ha
            exact schemeChar_toLower (List.all_eq_true.mp hcond.2 b hb)
        · rw [List.map_map, List.map_congr_left]
          intro a _
          exact toLower_toLower a
        · have hd : d = ':' := by
            have := dropWhile_head_not hdrop
            simpa using this
          subst hd
          rw [← htake, ← hdrop, List.takeWhile_append_dropWhile]
      · rw [if_neg hcond] at h
        cases h

/-! ## Stage lemmas for urlsplit -/

theorem urlsplit_eq (url ds : List Char) :
    urlsplit url ds =
      (if badBrackets (netlocSplit (schemeOrDefault (preprocessUrl url) ds).2).1 then
        .error "Invalid IPv6 URL"
      else
        .ok ⟨(schemeOrDefault (preprocessUrl url) ds).1,
             (netlocSplit (schemeOrDefault (preprocessUrl url) ds).2).1,
             (querySplit
               (fragSplit (netlocSplit (schemeOrDefault (preprocessUrl url) ds).2).2).1).1,
             (querySplit
               (fragSplit (netlocSplit (schemeOrDefault (preprocessUrl url) ds).2).2).1).2,
             (fragSplit (netlocSplit (schemeOrDefault (preprocessUrl url) ds).2).2).2⟩) :=
  rfl

theorem preprocessScheme_nil : preprocessScheme [] = [] := rfl

theorem schemeOrDefault_none {u ds : List Char} (h : schemeSplit u = none) :
    schemeOrDefault u ds = (preprocessScheme ds, u) := by
  rw [schemeOrDefault, h]

theorem schemeOrDefault_some {u ds s r : List Char}
    (h : schemeSplit u = some (s, r)) : schemeOrDefault u ds = (s, r) := by
  rw [schemeOrDefault, h]

theorem fragSplit_no_hash {l : List Char} (h : '#' ∉ l) : fragSplit l = (l, []) := by
  rw [fragSplit, splitFirst_eq_none.mpr h]

theorem querySplit_no_q {l : List Char} (h : '?' ∉ l) : querySplit l = (l, []) := by
  rw [querySplit, splitFirst_eq_none.mpr h]

theorem fragSplit_fst_no_hash (l : List Char) : '#' ∉ (fragSplit l).1 := by
  rcases hf : splitFirst '#' l with _ | ⟨a, b⟩
  · rw [fragSplit, hf]
    exact splitFirst_eq_none.mp hf
  · rw [fragSplit, hf]
    exact (splitFirst_eq_some hf).2

theorem querySplit_fst_no_q (l : List Char) : '?' ∉ (querySplit l).1 := by
  rcases hf : splitFirst '?' l with _ | ⟨a, b⟩
  · rw [querySplit, hf]
    exact splitFirst_eq_none.mp hf
  · rw [querySplit, hf]
    exact (splitFirst_eq_some hf).2

theorem fragSplit_fst_subset (l : List Char) : ∀ c ∈ (fragSplit l).1, c ∈ l := by
  intro c hc
  rcases hf : splitFirst '#' l with _ | ⟨a, b⟩
  · rw [fragSplit, hf] at hc
    exact hc
  · rw [fragSplit, hf] at hc
    rw [(splitFirst_eq_some hf).1]
    simp
    exact Or.inl hc

theorem querySplit_fst_subset (l : List Char) : ∀ c ∈ (querySplit l).1, c ∈ l := by
  intro c hc
  rcases hf : splitFirst '?' l with _ | ⟨a, b⟩
  · rw [querySplit, hf] at hc
    exact hc
  · rw [querySplit, hf] at hc
    rw [(splitFirst_eq_some hf).1]
    simp
    exact Or.inl hc

theorem splitFirst_fst_head {c : Char} (l : List Char) :
    (match splitFirst c l with | some p => p.1 | none => l) = [] ∨
    (match splitFirst c l with | some p => p.1 | none => l).head? = l.head? := by
  rcases hf : splitFirst c l with _ | ⟨a, b⟩
  · right; rfl
  · obtain ⟨rfl, -⟩ := splitFirst_eq_some hf
    cases a with
    | nil => left; rfl
    | cons x xs => right; rfl

theorem fragSplit_fst_head (l : List Char) :
    (fragSplit l).1 = [] ∨ (fragSplit l).1.head? = l.head? := by
  have := splitFirst_fst_head (c := '#') l
  rcases hf : splitFirst '#' l with _ | ⟨a, b⟩ <;> rw [hf] at this <;>
    rw [fragSplit, hf] <;> exact this

theorem querySplit_fst_head (l : List Char) :
    (querySplit l).1 = [] ∨ (querySplit l).1.head? = l.head? := by
  have := splitFirst_fst_head (c := '?') l
  rcases hf : splitFirst '?' l with _ | ⟨a, b⟩ <;> rw [hf] at this <;>
    rw [querySplit, hf] <;> exact this

theorem netlocSplit_fst_nondelim (rest : List Char) :
    ∀ c ∈ (netlocSplit rest).1, netlocDelim c = false := by
  intro c hc
  rw [netlocSplit] at hc
  by_cases h2 : rest.take 2 = ['/', '/']
  · rw [if_pos h2] at hc
    have := List.mem_takeWhile_imp hc
    simpa using this
  · rw [if_neg h2] at hc
    cases hc

theorem netlocSplit_fst_subset (rest : List Char) :
    ∀ c ∈ (netlocSplit rest).1, c ∈ rest := by
  intro c hc
  rw [netlocSplit] at hc
  by_cases h2 : rest.take 2 = ['/', '/']
  · rw [if_pos h2] at hc
    exact List.mem_of_mem_drop (List.takeWhile_subset _ hc)
  · rw [if_neg h2] at hc
    cases hc

theorem netlocSplit_snd_subset (rest : List Char) :
    ∀ c ∈ (netlocSplit rest).2, c ∈ rest := by
  intro c hc
  rw [netlocSplit] at hc
  by_cases h2 : rest.take 2 = ['/', '/']
  · rw [if_pos h2] at hc
    exact List.mem_of_mem_drop (List.dropWhile_subset _ hc)
  · rw [if_neg h2] at hc
    exact hc

theorem netlocSplit_snd_head {rest : List Char}
    (h : (netlocSplit rest).1 ≠ []) :
    (netlocSplit rest).2 = [] ∨
    ∃ d t, (netlocSplit rest).2 = d :: t ∧ netlocDelim d = true := by
  rw [netlocSplit] at h ⊢
  by_cases h2 : rest.take 2 = ['/', '/']
  · rw [if_pos h2] at h ⊢
    rcases hd : (rest.drop 2).dropWhile (fun c => !netlocDelim c) with _ | ⟨d, t⟩
    · exact Or.inl rfl
    · right
      refine ⟨d, t, rfl, ?_⟩
      have := dropWhile_head_not hd
      simpa using this
  · rw [if_neg h2] at h
    exact absurd rfl h

/-! ## Inversion of urlsplit and urlparse -/

theorem urlsplit_ok_inv {u ds : List Char} {sr : SplitRes}
    (h : urlsplit u ds = .ok sr) :
    (∀ c ∈ sr.netloc, netlocDelim c = false) ∧
    badBrackets sr.netloc = false ∧
    '#' ∉ sr.path ∧ '?' ∉ sr.path ∧
    (sr.netloc ≠ [] → sr.path = [] ∨ sr.path.take 1 = ['/']) ∧
    (sr.scheme = preprocessScheme ds ∨
      (validSchemeStr sr.scheme = true ∧ sr.scheme.map Char.toLower = sr.scheme)) ∧
    (∀ c ∈ sr.netloc ++ sr.path, unsafeByte c = false) := by
  rw [urlsplit_eq] at h
  by_cases hbrk :
      badBrackets (netlocSplit (schemeOrDefault (preprocessUrl u) ds).2).1 = true
  · rw [if_pos hbrk] at h
    cases h
  · rw [if_neg hbrk] at h
    injection h with h'
    have hsch := congrArg SplitRes.scheme h'
    have hnet := congrArg SplitRes.netloc h'
    have hpath := congrArg SplitRes.path h'
    dsimp only at hsch hnet hpath
    have hrest_sub : ∀ c ∈ (schemeOrDefault (preprocessUrl u) ds).2,
        c ∈ preprocessUrl u := by
      intro c hc
      rcases hss : schemeSplit (preprocessUrl u) with _ | ⟨s, r⟩
      · rw [schemeOrDefault_none hss] at hc
        exact hc
      · rw [schemeOrDefault_some hss] at hc
        obtain ⟨-, -, pre, hpre⟩ := schemeSplit_some hss
        rw [hpre]
        simp
        exact Or.inr (Or.inr hc)
    have hpre_safe : ∀ c ∈ preprocessUrl u, unsafeByte c = false := by
      intro c hc
      have := List.of_mem_filter hc
      simpa using this
    have hpath_sub : ∀ c ∈ (querySplit
        (fragSplit (netlocSplit (schemeOrDefault (preprocessUrl u) ds).2).2).1).1,
        c ∈ (schemeOrDefault (preprocessUrl u) ds).2 := by
      intro c hc
      exact netlocSplit_snd_subset _ _
        (fragSplit_fst_subset _ _ (querySplit_fst_subset _ _ hc))
    refine ⟨?_, ?_, ?_, ?_, ?_, ?_, ?_⟩
    · rw [← hnet]
      exact netlocSplit_fst_nondelim _
    · rw [← hnet]
      simpa using hbrk
    · rw [← hpath]
      intro hmem
      exact fragSplit_fst_no_hash _ (querySplit_fst_subset _ _ hmem)
    · rw [← hpath]
      exact querySplit_fst_no_q _
    · rw [← hnet, ← hpath]
      intro hne
      rcases netlocSplit_snd_head hne with h2 | ⟨d, t, h2, hdel⟩
      · left
        rw [h2]
        rfl
      · rcases fragSplit_fst_head
            (netlocSplit (schemeOrDefault (preprocessUrl u) ds).2).2 with hf | hf
        · left
          rw [hf]
          rfl
        · rcases querySplit_fst_head
              (fragSplit (netlocSplit (schemeOrDefault (preprocessUrl u) ds).2).2).1 with
            hq | hq
          · exact Or.inl hq
          · have hPhead : (querySplit
                (fragSplit (netlocSplit (schemeOrDefault (preprocessUrl u) ds).2).2).1).1.head?
                = some d := by
              rw [hq, hf, h2]
              rfl
            rcases hp : (querySplit
                (fragSplit (netlocSplit (schemeOrDefault (preprocessUrl u) ds).2).2).1).1
              with _ | ⟨p, ps⟩
            · exact Or.inl rfl
            · right
              rw [hp] at hPhead
              simp at hPhead
              subst hPhead
              have hnh : p ≠ '#' := by
                intro he
                exact fragSplit_fst_no_hash _
                  (querySplit_fst_subset _ _
                    (by rw [hp]; exact he ▸ List.mem_cons_self _ _))
              have hnq : p ≠ '?' := by
                intro he
                exact querySplit_fst_no_q _
                  (by rw [hp]; exact he ▸ List.mem_cons_self _ _)
              have hps : p = '/' := by
                rw [netlocDelim] at hdel
                rcases Bool.or_eq_true .. ▸ hdel with h3 | h3
                · rcases Bool.or_eq_true .. ▸ h3 with h4 | h4
                  · simpa using h4
                  · exact absurd (by simpa using h4) hnq
                · exact absurd (by simpa using h3) hnh
              rw [hps]
              rfl
    · rw [← hsch]
      rcases hss : schemeSplit (preprocessUrl u) with _ | ⟨s, r⟩
      · left
        rw [schemeOrDefault_none hss]
      · right
        rw [schemeOrDefault_some hss]
        obtain ⟨h1, h2, -⟩ := schemeSplit_some hss
        exact ⟨h1, h2⟩
    · rw [← hnet, ← hpath]
      intro c hc
      rcases List.mem_append.mp hc with hc | hc
      · exact hpre_safe c (hrest_sub c (netlocSplit_fst_subset _ _ hc))
      · exact hpre_safe c (hrest_sub c (hpath_sub c hc))

theorem splitparams_fst_head (l : List Char) :
    (splitparams l).1 = [] ∨ (splitparams l).1.head? = l.head? := by
  rcases hl : splitLast '/' l with _ | ⟨before, after⟩
  · rcases hf : splitFirst ';' l with _ | ⟨x, y⟩
    · right
      simp only [splitparams, hl, hf]
    · obtain ⟨heq, -⟩ := splitFirst_eq_some hf
      simp only [splitparams, hl, hf]
      cases x with
      | nil => exact Or.inl rfl
      | cons a as =>
        right
        rw [heq]
        rfl
  · obtain ⟨heq, hna⟩ := splitLast_eq_some hl
    rcases hf : splitFirst ';' after with _ | ⟨x, y⟩
    · right
      simp only [splitparams, hl, hf]
    · simp only [splitparams, hl, hf]
      cases before with
      | nil =>
        right
        rw [heq]
        rfl
      | cons a as =>
        right
        rw [heq]
        rfl

theorem urlparse_shape {u : List Char} {pr : ParseRes}
    (h : urlparse u [] = .ok pr) : ParseShape pr := by
  obtain ⟨sr, hsplit, hf⟩ := exceptMap_ok h
  obtain ⟨hnd, hbrk, hnh, hnq, hshape, hsch, hsafe⟩ := urlsplit_ok_inv hsplit
  rw [preprocessScheme_nil] at hsch
  by_cases hcond : usesParams.contains sr.scheme = true ∧ ';' ∈ sr.path
  · rw [if_pos hcond] at hf
    rcases hsp : splitparams sr.path with ⟨pa, prm⟩
    rw [hsp] at hf
    have hpa : pa = (splitparams sr.path).1 := by
      rw [hsp]
    have e1 := congrArg ParseRes.scheme hf
    have e2 := congrArg ParseRes.netloc hf
    have e3 := congrArg ParseRes.path hf
    dsimp only at e1 e2 e3
    constructor
    · rw [← e1]
      exact hsch
    · rw [← e2]
      exact hnd
    · rw [← e2]
      exact hbrk
    · rw [← e3, hpa]
      intro hmem
      exact hnh (splitparams_subset _ hmem)
    · rw [← e3, hpa]
      intro hmem
      exact hnq (splitparams_subset _ hmem)
    · rw [← e2, ← e3, hpa]
      intro hne
      rcases hshape hne with hpe | hp1
      · exact absurd (hpe ▸ hcond.2) (List.not_mem_nil ';')
      · rcases splitparams_fst_head sr.path with hh | hh
        · exact Or.inl hh
        · rcases hpp : (splitparams sr.path).1 with _ | ⟨b, bs⟩
          · exact Or.inl rfl
          · right
            cases hsrp : sr.path with
            | nil => rw [hsrp] at hp1; cases hp1
            | cons a as =>
              rw [hsrp] at hp1
              have ha : a = '/' := by
                have : [a] = ['/'] := hp1
                injection this with h1 _
              rw [hpp, hsrp] at hh
              simp [ha] at hh
              rw [hpp] at *
              simp at hh ⊢
              exact hh
    · rw [← e1, ← e3, hpa]
      intro hup hsemi
      rcases splitparams_decomp hcond.2 with hdec | ⟨hns, -⟩
      · exact hdec
      · exact absurd hsemi hns
    · rw [← e2, ← e3, hpa]
      intro c hc
      rcases List.mem_append.mp hc with hc | hc
      · exact hsafe c (List.mem_append.mpr (Or.inl hc))
      · exact hsafe c (List.mem_append.mpr (Or.inr (splitparams_subset _ hc)))
  · rw [if_neg hcond] at hf
    have e1 := congrArg ParseRes.scheme hf
    have e2 := congrArg ParseRes.netloc hf
    have e3 := congrArg ParseRes.path hf
    dsimp only at e1 e2 e3
    constructor
    · rw [← e1]
      exact hsch
    · rw [← e2]
      exact hnd
    · rw [← e2]
      exact hbrk
    · rw [← e3]
      exact hnh
    · rw [← e3]
      exact hnq
    · rw [← e2, ← e3]
      exact hshape
    · rw [← e1, ← e3]
      intro hup hsemi
      exact absurd ⟨hup, hsemi⟩ hcond
    · rw [← e2, ← e3]
      exact hsafe

/-! ## Reparsing a clean_url output -/

theorem netlocSplit_slashes (m : List Char) :
    netlocSplit ('/' :: '/' :: m) =
      (m.takeWhile (fun c => !netlocDelim c),
       m.dropWhile (fun c => !netlocDelim c)) := rfl

theorem netlocSplit_colon (r : List Char) :
    netlocSplit (':' :: r) = ([], ':' :: r) := by
  rw [netlocSplit, if_neg]
  intro hc
  rw [List.take] at hc
  injection hc with h1 _
  exact absurd h1 (by decide)

theorem validSchemeStr_head_alpha {s : List Char} (hs : validSchemeStr s = true) :
    ∃ c cs, s = c :: cs ∧ asciiAlpha c = true ∧ (c :: cs).all schemeChar = true := by
  cases s with
  | nil => cases hs
  | cons c cs =>
    rw [validSchemeStr, Bool.and_eq_true] at hs
    exact ⟨c, cs, rfl, hs.1, hs.2⟩

theorem urlsplit_reparse {s m : List Char}
    (hs : validSchemeStr s = true)
    (hsafe : ∀ c ∈ m, unsafeByte c = false)
    (hnh : '#' ∉ m) (hnq : '?' ∉ m) :
    urlsplit (s ++ ':' :: '/' :: '/' :: m) [] =
      if badBrackets (m.takeWhile (fun c => !netlocDelim c)) then
        .error "Invalid IPv6 URL"
      else
        .ok ⟨s.map Char.toLower, m.takeWhile (fun c => !netlocDelim c),
             m.dropWhile (fun c => !netlocDelim c), [], []⟩ := by
  obtain ⟨c0, cs0, hsc, halpha, hall⟩ := validSchemeStr_head_alpha hs
  have hpre : preprocessUrl (s ++ ':' :: '/' :: '/' :: m) =
      s ++ ':' :: '/' :: '/' :: m := by
    apply preprocessUrl_eq_self
    · intro c hc
      rw [hsc] at hc
      simp at hc
      subst hc
      have := asciiAlpha_iff.mp halpha
      simp [c0OrSpace]
      omega
    · intro c hc
      rcases List.mem_append.mp hc with hc | hc
      · rw [hsc] at hc
        exact schemeChar_not_unsafe (List.all_eq_true.mp hall c hc)
      · rcases List.mem_cons.mp hc with rfl | hc
        · decide
        · rcases List.mem_cons.mp hc with rfl | hc
          · decide
          · rcases List.mem_cons.mp hc with rfl | hc
            · decide
            · exact hsafe c hc
  have hss : schemeSplit (s ++ ':' :: '/' :: '/' :: m) =
      some (s.map Char.toLower, '/' :: '/' :: m) := schemeSplit_append hs
  have hdf : '#' ∉ m.dropWhile (fun c => !netlocDelim c) := fun hm =>
    hnh (List.dropWhile_subset _ hm)
  have hdq : '?' ∉ m.dropWhile (fun c => !netlocDelim c) := fun hm =>
    hnq (List.dropWhile_subset _ hm)
  rw [urlsplit_eq]
  simp only [hpre, schemeOrDefault_some hss, netlocSplit_slashes,
    fragSplit_no_hash hdf, querySplit_no_q hdq]

theorem urlparse_reparse {s m : List Char}
    (hs : validSchemeStr s = true)
    (hsafe : ∀ c ∈ m, unsafeByte c = false)
    (hnh : '#' ∉ m) (hnq : '?' ∉ m)
    (hparams : usesParams.contains (s.map Char.toLower) = true →
      ';' ∈ m.dropWhile (fun c => !netlocDelim c) →
      splitparams (m.dropWhile (fun c => !netlocDelim c)) =
        (m.dropWhile (fun c => !netlocDelim c), [])) :
    urlparse (s ++ ':' :: '/' :: '/' :: m) [] =
      if badBrackets (m.takeWhile (fun c => !netlocDelim c)) then
        .error "Invalid IPv6 URL"
      else
        .ok ⟨s.map Char.toLower, m.takeWhile (fun c => !netlocDelim c),
             m.dropWhile (fun c => !netlocDelim c), [], [], []⟩ := by
  rw [urlparse, urlsplit_reparse hs hsafe hnh hnq]
  by_cases hbrk : badBrackets (m.takeWhile (fun c => !netlocDelim c)) = true
  · rw [if_pos hbrk, if_pos hbrk]
    rfl
  · rw [if_neg hbrk, if_neg hbrk]
    simp only [Except.map]
    by_cases hcond : usesParams.contains (s.map Char.toLower) = true ∧
        ';' ∈ m.dropWhile (fun c => !netlocDelim c)
    · rw [if_pos hcond, hparams hcond.1 hcond.2]
    · rw [if_neg hcond]

theorem params_decomp_dropWhile {pa : List Char}
    (hnh : '#' ∉ pa) (hnq : '?' ∉ pa)
    (hd : ∃ a b, pa = a ++ '/' :: b ∧ ';' ∉ b ∧ '/' ∉ b) :
    ∃ a b, pa.dropWhile (fun c => !netlocDelim c) = a ++ '/' :: b ∧
      ';' ∉ b ∧ '/' ∉ b := by
  obtain ⟨a, b, rfl, hsb, hfb⟩ := hd
  induction a with
  | nil =>
    refine ⟨[], b, ?_, hsb, hfb⟩
    rw [List.nil_append, List.dropWhile_cons_of_neg (by decide)]
  | cons x xs ih =>
    by_cases hx : netlocDelim x = true
    · refine ⟨x :: xs, b, ?_, hsb, hfb⟩
      rw [List.cons_append, List.dropWhile_cons_of_neg (by simp [hx])]
    · have hnh' : '#' ∉ xs ++ '/' :: b := fun hm => hnh (List.mem_cons_of_mem x hm)
      have hnq' : '?' ∉ xs ++ '/' :: b := fun hm => hnq (List.mem_cons_of_mem x hm)
      rw [List.cons_append, List.dropWhile_cons_of_pos (by simp [hx])]
      exact ih hnh' hnq'

theorem cleanOf_eq (p : ParseRes) :
    cleanOf p = p.scheme ++ ':' :: '/' :: '/' :: (p.netloc ++ p.path) := rfl

/-- Stability of normalization: reparsing a `clean_url` output whose scheme
is nonempty reproduces the same clean form (conditional on the reparse not
raising the bracket `ValueError`). -/
theorem clean_stable {p p' : ParseRes} (hp : ParseShape p) (hs : p.scheme ≠ [])
    (h' : urlparse (cleanOf p) [] = .ok p') :
    p'.scheme = p.scheme ∧ p'.netloc ++ p'.path = p.netloc ++ p.path ∧
    cleanOf p' = cleanOf p := by
  have hvs : validSchemeStr p.scheme = true ∧ p.scheme.map Char.toLower = p.scheme := by
    rcases hp.scheme_ok with h0 | h0
    · exact absurd h0 hs
    · exact h0
  have hnn : '#' ∉ p.netloc ++ p.path := by
    intro hm
    rcases List.mem_append.mp hm with hm | hm
    · have := hp.netloc_ok _ hm
      simp [netlocDelim] at this
    · exact hp.path_hash hm
  have hqq : '?' ∉ p.netloc ++ p.path := by
    intro hm
    rcases List.mem_append.mp hm with hm | hm
    · have := hp.netloc_ok _ hm
      simp [netlocDelim] at this
    · exact hp.path_query hm
  have hdw : (p.netloc ++ p.path).dropWhile (fun c => !netlocDelim c) =
      p.path.dropWhile (fun c => !netlocDelim c) := by
    apply List.dropWhile_append_of_pos
    intro a ha
    simp [hp.netloc_ok a ha]
  have hparams : usesParams.contains (p.scheme.map Char.toLower) = true →
      ';' ∈ (p.netloc ++ p.path).dropWhile (fun c => !netlocDelim c) →
      splitparams ((p.netloc ++ p.path).dropWhile (fun c => !netlocDelim c)) =
        ((p.netloc ++ p.path).dropWhile (fun c => !netlocDelim c), []) := by
    rw [hdw, hvs.2]
    intro hup hsemi
    apply splitparams_noop
    apply params_decomp_dropWhile hp.path_hash hp.path_query
    exact hp.params_ok hup (List.dropWhile_subset _ hsemi)
  have hrep := urlparse_reparse hvs.1 (hp.clean_safe) hnn hqq hparams
  rw [cleanOf_eq] at h'
  rw [hrep] at h'
  by_cases hbrk : badBrackets ((p.netloc ++ p.path).takeWhile (fun c => !netlocDelim c)) = true
  · rw [if_pos hbrk] at h'
    cases h'
  · rw [if_neg hbrk] at h'
    injection h' with h''
    have e1 := congrArg ParseRes.scheme h''
    have e2 := congrArg ParseRes.netloc h''
    have e3 := congrArg ParseRes.path h''
    dsimp only at e1 e2 e3
    rw [hvs.2] at e1
    refine ⟨e1.symm, ?_, ?_⟩
    · rw [← e2, ← e3, List.takeWhile_append_dropWhile]
    · rw [cleanOf_eq, cleanOf_eq, ← e1, ← e2, ← e3, List.takeWhile_append_dropWhile]

/-- Reparsing a clean form whose scheme component is empty yields an empty
netloc (the output starts with `://`, which blocks both the scheme
detection and the `//` authority test). -/
theorem reparse_scheme_empty {p0 : ParseRes} (hsch : p0.scheme = [])
    (hsafe : ∀ c ∈ p0.netloc ++ p0.path, unsafeByte c = false)
    {pq : ParseRes} (hpq : urlparse (cleanOf p0) [] = .ok pq) :
    pq.netloc = [] := by
  have hclean : cleanOf p0 = ':' :: '/' :: '/' :: (p0.netloc ++ p0.path) := by
    rw [cleanOf_eq, hsch, List.nil_append]
  rw [hclean] at hpq
  have hpre : preprocessUrl (':' :: '/' :: '/' :: (p0.netloc ++ p0.path)) =
      ':' :: '/' :: '/' :: (p0.netloc ++ p0.path) := by
    apply preprocessUrl_eq_self
    · intro c hc
      simp at hc
      subst hc
      decide
    · intro c hc
      rcases List.mem_cons.mp hc with rfl | hc
      · decide
      · rcases List.mem_cons.mp hc with rfl | hc
        · decide
        · rcases List.mem_cons.mp hc with rfl | hc
          · decide
          · exact hsafe c hc
  obtain ⟨sr, hsplit, hf⟩ := exceptMap_ok hpq
  have hss : schemeSplit (preprocessUrl (':' :: '/' :: '/' :: (p0.netloc ++ p0.path))) =
      none := by
    rw [hpre]
    exact schemeSplit_none_head_colon
  rw [urlsplit_eq, schemeOrDefault_none hss] at hsplit
  rw [hpre] at hsplit
  dsimp only at hsplit
  rw [netlocSplit_colon] at hsplit
  dsimp only at hsplit
  rw [if_neg (by decide)] at hsplit
  injection hsplit with h''
  have e2 := congrArg SplitRes.netloc h''
  dsimp only at e2
  have hnet : pq.netloc = sr.netloc := by
    by_cases hcond : usesParams.contains sr.scheme = true ∧ ';' ∈ sr.path
    · rw [if_pos hcond] at hf
      rcases hsp : splitparams sr.path with ⟨pa, prm⟩
      rw [hsp] at hf
      exact (congrArg ParseRes.netloc hf).symm
    · rw [if_neg hcond] at hf
      exact (congrArg ParseRes.netloc hf).symm
  rw [hnet, ← e2]

/-! ## Guard and enqueue lemmas -/

theorem exceptBind_error {α β : Type} (e : String) (f : α → Except String β) :
    (Except.error e >>= f) = Except.error e := rfl

theorem exceptBind_ok {α β : Type} (a : α) (f : α → Except String β) :
    (Except.ok a >>= f) = f a := rfl

theorem clean_url_inv {u v : List Char} (h : clean_url u = .ok v) :
    ∃ p, urlparse u [] = .ok p ∧ v = cleanOf p := by
  obtain ⟨a, ha, hf⟩ := exceptMap_ok h
  exact ⟨a, ha, hf.symm⟩

theorem is_same_domain_inv {q d : List Char} {b : Bool}
    (h : is_same_domain q d = .ok b) :
    ∃ pq, urlparse q [] = .ok pq ∧ b = decide (pq.netloc = d) := by
  obtain ⟨a, ha, hf⟩ := exceptMap_ok h
  exact ⟨a, ha, hf.symm⟩

/-- A URL admitted by the guard is a fixed point of `clean_url` whenever the
crawl domain is nonempty: the key stability property of the frontier. -/
theorem guarded_of_clean {abs q domain : List Char} (hd : domain ≠ [])
    (hc : clean_url abs = .ok q)
    (hsd : is_same_domain q domain = .ok true) :
    GuardedUrl domain q := by
  obtain ⟨p0, hp0, rfl⟩ := clean_url_inv hc
  obtain ⟨pq, hpq, hb⟩ := is_same_domain_inv hsd
  have hdomq : pq.netloc = domain := of_decide_eq_true hb.symm
  have hshape := urlparse_shape hp0
  have hs0 : p0.scheme ≠ [] := by
    intro hsch
    have := reparse_scheme_empty hsch hshape.clean_safe hpq
    rw [this] at hdomq
    exact hd hdomq.symm
  obtain ⟨he1, he2, he3⟩ := clean_stable hshape hs0 hpq
  refine ⟨?_, hsd⟩
  rw [clean_url, hpq]
  simp only [Except.map]
  rw [← cleanOf_eq, he3]

theorem processLinks_inv {domain current : List Char} {visited : List (List Char)}
    (hd : domain ≠ []) :
    ∀ (links : List String) (queue enq queue' enq' : List (List Char)),
    processLinks domain current visited queue enq links = .ok (queue', enq') →
    (∀ q ∈ queue', q ∈ queue ∨ GuardedUrl domain q) ∧
    (∀ q ∈ enq', q ∈ enq ∨ is_same_domain q domain = .ok true) := by
  intro links
  induction links with
  | nil =>
    intro queue enq queue' enq' h
    rw [processLinks] at h
    injection h with h'
    injection h' with h1 h2
    subst h1
    subst h2
    exact ⟨fun q hq => Or.inl hq, fun q hq => Or.inl hq⟩
  | cons href rest ih =>
    intro queue enq queue' enq' h
    rw [processLinks] at h
    rcases hj : urljoin current href.toList with e | abs <;> rw [hj] at h
    · rw [exceptBind_error] at h
      cases h
    · simp only [exceptBind_ok] at h
      rcases hcl : clean_url abs with e | absC <;> rw [hcl] at h
      · rw [exceptBind_error] at h
        cases h
      · simp only [exceptBind_ok] at h
        rcases hsd : is_same_domain absC domain with e | sd <;> rw [hsd] at h
        · rw [exceptBind_error] at h
          cases h
        · simp only [exceptBind_ok] at h
          by_cases hif : sd = true ∧ absC ∉ visited
          · rw [if_pos hif] at h
            obtain ⟨hq', he'⟩ := ih (queue ++ [absC]) (enq ++ [absC]) queue' enq' h
            have hguard : GuardedUrl domain absC :=
              guarded_of_clean hd hcl (hif.1 ▸ hsd)
            constructor
            · intro q hq
              rcases hq' q hq with hmem | hg
              · rcases List.mem_append.mp hmem with hmem | hmem
                · exact Or.inl hmem
                · right
                  have : q = absC := by simpa using hmem
                  exact this ▸ hguard
              · exact Or.inr hg
            · intro q hq
              rcases he' q hq with hmem | hg
              · rcases List.mem_append.mp hmem with hmem | hmem
                · exact Or.inl hmem
                · right
                  have : q = absC := by simpa using hmem
                  exact this ▸ hguard.2
              · exact Or.inr hg
          · rw [if_neg hif] at h
            exact ih queue enq queue' enq' h

/-! ## Step and loop inversion -/

theorem crawlStep_cases {net : List Char → FetchOutcome} {parse : String → List Node}
    {restrict : Bool} {domain : List Char} {st st' : CrawlSt}
    (h : crawlStep net parse restrict domain st = .ok st') :
    (st.queue = [] ∧ st' = st) ∨
    (∃ u rest current,
      st.queue = u :: rest ∧ clean_url u = .ok current ∧
      ((current ∈ st.visited ∧ st' = { st with queue := rest }) ∨
       (current ∉ st.visited ∧
        ((∃ text,
           net current = .response 200 text ∧
           ∃ queue' enq',
             processLinks domain current (current :: st.visited) rest st.enqueued
               (extractLinks restrict (parse text)) = .ok (queue', enq') ∧
             st' = ⟨queue', current :: st.visited, st.pages ++ [⟨current, text⟩],
                    st.fetched ++ [current], enq'⟩) ∨
         ((net current = .failure ∨
           ∃ status text, net current = .response status text ∧ status ≠ 200) ∧
          st' = { st with queue := rest, visited := current :: st.visited, fetched := st.fetched ++ [current] }))))) := by
  rcases hq : st.queue with _ | ⟨u, rest⟩
  · rw [crawlStep, hq] at h
    injection h with h'
    exact Or.inl ⟨rfl, h'.symm⟩
  · rw [crawlStep, hq] at h
    dsimp only at h
    rcases hcl : clean_url u with e | current <;> rw [hcl] at h <;>
      try dsimp only at h
    · cases h
    · right
      refine ⟨u, rest, current, rfl, hcl, ?_⟩
      by_cases hv : current ∈ st.visited
      · rw [if_pos hv] at h
        injection h with h'
        exact Or.inl ⟨hv, h'.symm⟩
      · rw [if_neg hv] at h
        right
        refine ⟨hv, ?_⟩
        rcases hnet : net current with _ | ⟨status, text⟩ <;> rw [hnet] at h <;>
          try dsimp only at h
        · injection h with h'
          exact Or.inr ⟨Or.inl rfl, h'.symm⟩
        · by_cases hst : status ≠ 200
          · rw [if_pos hst] at h
            injection h with h'
            exact Or.inr ⟨Or.inr ⟨status, text, rfl, hst⟩, h'.symm⟩
          · rw [if_neg hst] at h
            push_neg at hst
            subst hst
            left
            rcases hpl : processLinks domain current (current :: st.visited) rest
                st.enqueued (extractLinks restrict (parse text)) with er | ⟨queue', enq'⟩ <;>
              rw [hpl] at h <;> try dsimp only at h
            · cases h
            · refine ⟨text, rfl, queue', enq', hpl, ?_⟩
              injection h with h'
              exact h'.symm

theorem crawlLoop_inv {net : List Char → FetchOutcome} {parse : String → List Node}
    {restrict : Bool} {domain : List Char} {P : CrawlSt → Prop}
    (hP : ∀ st st', crawlStep net parse restrict domain st = .ok st' → P st → P st') :
    ∀ (fuel : Nat) (st stF : CrawlSt),
      crawlLoop net parse restrict domain fuel st = some (.ok stF) →
      P st → P stF := by
  intro fuel
  induction fuel with
  | zero =>
    intro st stF h hp
    obtain ⟨q, v, pg, f, e⟩ := st
    cases q with
    | nil =>
      rw [crawlLoop] at h
      injection h with h'
      injection h' with h''
      exact h'' ▸ hp
    | cons u rest =>
      rw [crawlLoop] at h
      · cases h
      · intro v1 p1 f1 e1 hcontra
        injection hcontra with h1
        cases h1
  | succ fuel ih =>
    intro st stF h hp
    obtain ⟨q, v, pg, f, e⟩ := st
    cases q with
    | nil =>
      rw [crawlLoop] at h
      injection h with h'
      injection h' with h''
      exact h'' ▸ hp
    | cons u rest =>
      rw [crawlLoop] at h
      · rcases hs : crawlStep net parse restrict domain ⟨u :: rest, v, pg, f, e⟩ with
          er | st2 <;> rw [hs] at h
        · simp at h
        · exact ih st2 stF h (hP _ _ hs hp)
      · intro v1 p1 f1 e1 hcontra
        injection hcontra with h1
        cases h1

/-! ## Invariant preservation -/

theorem crawlStep_StInv {net : List Char → FetchOutcome} {parse : String → List Node}
    {restrict : Bool} {domain : List Char} {st st' : CrawlSt}
    (h : crawlStep net parse restrict domain st = .ok st') (hi : StInv st) :
    StInv st' := by
  obtain ⟨hfn, hfv, hpn, hpv⟩ := hi
  rcases crawlStep_cases h with ⟨-, rfl⟩ | ⟨u, rest, current, hq, hcl, hcases⟩
  · exact ⟨hfn, hfv, hpn, hpv⟩
  have hcur_f : ∀ current, current ∉ st.visited → current ∉ st.fetched :=
    fun c hv hf => hv (hfv c hf)
  have hcur_p : ∀ current, current ∉ st.visited →
      current ∉ st.pages.map Page.url := by
    intro c hv hm
    obtain ⟨p, hp, hpu⟩ := List.mem_map.mp hm
    exact hv (hpu ▸ hpv p hp)
  rcases hcases with ⟨hv, rfl⟩ | ⟨hv, hcases⟩
  · exact ⟨hfn, hfv, hpn, hpv⟩
  rcases hcases with ⟨text, hnet, queue', enq', hpl, rfl⟩ | ⟨hfail, rfl⟩
  · refine ⟨?_, ?_, ?_, ?_⟩
    · simp [List.nodup_append, hfn, List.disjoint_singleton]
      exact hcur_f current hv
    · intro x hx
      rcases List.mem_append.mp hx with hx | hx
      · exact List.mem_cons_of_mem _ (hfv x hx)
      · have : x = current := by simpa using hx
        exact this ▸ List.mem_cons_self _ _
    · rw [List.map_append]
      simp [List.nodup_append, hpn, List.disjoint_singleton]
      intro p hp he
      exact hcur_p current hv (List.mem_map.mpr ⟨p, hp, he⟩)
    · intro p hp
      rcases List.mem_append.mp hp with hp | hp
      · exact List.mem_cons_of_mem _ (hpv p hp)
      · have : p = ⟨current, text⟩ := by simpa using hp
        rw [this]
        exact List.mem_cons_self _ _
  · refine ⟨?_, ?_, hpn, ?_⟩
    · simp [List.nodup_append, hfn, List.disjoint_singleton]
      exact hcur_f current hv
    · intro x hx
      rcases List.mem_append.mp hx with hx | hx
      · exact List.mem_cons_of_mem _ (hfv x hx)
      · have : x = current := by simpa using hx
        exact this ▸ List.mem_cons_self _ _
    · intro p hp
      exact List.mem_cons_of_mem _ (hpv p hp)

theorem crawlStep_CleanInv {net : List Char → FetchOutcome}
    {parse : String → List Node} {restrict : Bool} {domain : List Char}
    {st st' : CrawlSt}
    (h : crawlStep net parse restrict domain st = .ok st') (hi : CleanInv st) :
    CleanInv st' := by
  obtain ⟨hvc, hpc⟩ := hi
  rcases crawlStep_cases h with ⟨-, rfl⟩ | ⟨u, rest, current, hq, hcl, hcases⟩
  · exact ⟨hvc, hpc⟩
  have hcur : IsCleanOutput current := ⟨u, hcl⟩
  rcases hcases with ⟨hv, rfl⟩ | ⟨hv, hcases⟩
  · exact ⟨hvc, hpc⟩
  rcases hcases with ⟨text, hnet, queue', enq', hpl, rfl⟩ | ⟨hfail, rfl⟩
  · refine ⟨?_, ?_⟩
    · intro x hx
      rcases List.mem_cons.mp hx with rfl | hx
      · exact hcur
      · exact hvc x hx
    · intro p hp
      rcases List.mem_append.mp hp with hp | hp
      · exact hpc p hp
      · have : p = ⟨current, text⟩ := by simpa using hp
        rw [this]
        exact hcur
  · refine ⟨?_, hpc⟩
    intro x hx
    rcases List.mem_cons.mp hx with rfl | hx
    · exact hcur
    · exact hvc x hx

theorem crawlStep_DomInv {net : List Char → FetchOutcome}
    {parse : String → List Node} {restrict : Bool}
    {domain start_url : List Char} {st st' : CrawlSt} (hd : domain ≠ [])
    (h : crawlStep net parse restrict domain st = .ok st')
    (hi : DomInv domain start_url st) : DomInv domain start_url st' := by
  obtain ⟨hqi, hei, hfi⟩ := hi
  rcases crawlStep_cases h with ⟨-, rfl⟩ | ⟨u, rest, current, hq, hcl, hcases⟩
  · exact ⟨hqi, hei, hfi⟩
  have hu : u = start_url ∨ GuardedUrl domain u := hqi u (hq ▸ List.mem_cons_self _ _)
  have hrest : ∀ q ∈ rest, q = start_url ∨ GuardedUrl domain q := fun q hr =>
    hqi q (hq ▸ List.mem_cons_of_mem _ hr)
  have hcur : clean_url start_url = .ok current ∨
      ∃ p, urlparse current [] = .ok p ∧ p.netloc = domain := by
    rcases hu with rfl | hg
    · exact Or.inl hcl
    · right
      have hcu : current = u := by
        rw [hg.1] at hcl
        injection hcl with h'
        exact h'.symm
      obtain ⟨pq, hpq, hb⟩ := is_same_domain_inv hg.2
      exact ⟨pq, hcu ▸ hpq, (of_decide_eq_true hb.symm : pq.netloc = domain)⟩
  rcases hcases with ⟨hv, rfl⟩ | ⟨hv, hcases⟩
  · exact ⟨hrest, hei, hfi⟩
  rcases hcases with ⟨text, hnet, queue', enq', hpl, rfl⟩ | ⟨hfail, rfl⟩
  · obtain ⟨hq', he'⟩ := processLinks_inv hd _ _ _ _ _ hpl
    refine ⟨?_, ?_, ?_⟩
    · intro q hmem
      rcases hq' q hmem with hmem | hg
      · exact hrest q hmem
      · exact Or.inr hg
    · intro q hmem
      rcases he' q hmem with hmem | hg
      · exact hei q hmem
      · exact hg
    · intro x hx
      rcases List.mem_append.mp hx with hx | hx
      · exact hfi x hx
      · have : x = current := by simpa using hx
        exact this ▸ hcur
  · refine ⟨hrest, hei, ?_⟩
    intro x hx
    rcases List.mem_append.mp hx with hx | hx
    · exact hfi x hx
    · have : x = current := by simpa using hx
      exact this ▸ hcur

/-! ## Totality of URL handling (modulo the bracket ValueError) -/

theorem urlsplit_total (u ds : List Char) :
    (∃ sr, urlsplit u ds = .ok sr) ∨ urlsplit u ds = .error "Invalid IPv6 URL" := by
  rw [urlsplit_eq]
  by_cases hbrk :
      badBrackets (netlocSplit (schemeOrDefault (preprocessUrl u) ds).2).1 = true
  · right
    rw [if_pos hbrk]
  · left
    exact ⟨_, by rw [if_neg hbrk]⟩

theorem urlparse_total (u ds : List Char) :
    (∃ p, urlparse u ds = .ok p) ∨ urlparse u ds = .error "Invalid IPv6 URL" := by
  rcases urlsplit_total u ds with ⟨sr, hsr⟩ | hsr
  · left
    exact ⟨_, by rw [urlparse, hsr]; rfl⟩
  · right
    rw [urlparse, hsr]
    rfl

theorem clean_url_total (u : List Char) :
    (∃ v, clean_url u = .ok v) ∨ clean_url u = .error "Invalid IPv6 URL" := by
  rcases urlparse_total u [] with ⟨p, hp⟩ | hp
  · left
    exact ⟨_, by rw [clean_url, hp]; rfl⟩
  · right
    rw [clean_url, hp]
    rfl

theorem is_same_domain_total (u d : List Char) :
    (∃ b, is_same_domain u d = .ok b) ∨
    is_same_domain u d = .error "Invalid IPv6 URL" := by
  rcases urlparse_total u [] with ⟨p, hp⟩ | hp
  · left
    exact ⟨_, by rw [is_same_domain, hp]; rfl⟩
  · right
    rw [is_same_domain, hp]
    rfl

theorem urljoin_total (b u : List Char) :
    (∃ v, urljoin b u = .ok v) ∨ urljoin b u = .error "Invalid IPv6 URL" := by
  rw [urljoin]
  by_cases hb : b = []
  · rw [if_pos hb]
    exact Or.inl ⟨u, rfl⟩
  · rw [if_neg hb]
    by_cases hu : u = []
    · rw [if_pos hu]
      exact Or.inl ⟨b, rfl⟩
    · rw [if_neg hu]
      rcases urlparse_total b [] with ⟨pb, hpb⟩ | hpb <;> rw [hpb]
      · simp only [exceptBind_ok]
        rcases urlparse_total u pb.scheme with ⟨pu, hpu⟩ | hpu <;> rw [hpu]
        · simp only [exceptBind_ok]
          left
          by_cases h1 : pu.scheme ≠ pb.scheme ∨ ¬ usesRelative.contains pu.scheme
          · rw [if_pos h1]
            exact ⟨u, rfl⟩
          · rw [if_neg h1]
            by_cases h2 : usesNetloc.contains pu.scheme ∧ pu.netloc ≠ []
            · rw [if_pos h2]
              exact ⟨_, rfl⟩
            · rw [if_neg h2]
              by_cases h3 : pu.path = [] ∧ pu.params = []
              · rw [if_pos h3]
                exact ⟨_, rfl⟩
              · rw [if_neg h3]
                exact ⟨_, rfl⟩
        · rw [exceptBind_error]
          exact Or.inr rfl
      · rw [exceptBind_error]
        exact Or.inr rfl

theorem badBrackets_of_free {l : List Char} (h1 : '[' ∉ l) (h2 : ']' ∉ l) :
    badBrackets l = false := by
  simp [badBrackets, h1, h2]

theorem preprocessUrl_subset (u : List Char) : ∀ c ∈ preprocessUrl u, c ∈ u := by
  intro c hc
  rw [preprocessUrl] at hc
  exact List.dropWhile_subset _ (List.mem_of_mem_filter hc)

theorem schemeOrDefault_snd_subset (url1 ds : List Char) :
    ∀ c ∈ (schemeOrDefault url1 ds).2, c ∈ url1 := by
  intro c hc
  rcases hss : schemeSplit url1 with _ | ⟨s, r⟩
  · rw [schemeOrDefault, hss] at hc
    exact hc
  · rw [schemeOrDefault, hss] at hc
    dsimp only at hc
    obtain ⟨-, -, pre, hpre⟩ := schemeSplit_some hss
    rw [hpre]
    simp only [List.mem_append, List.mem_cons]
    exact Or.inr (Or.inr hc)

/-- An input without square brackets always splits successfully: the only
error of the modelled `urlsplit` needs a bracket in the authority. -/
theorem urlsplit_ok_of_bracket_free {u : List Char} (ds : List Char)
    (h1 : '[' ∉ u) (h2 : ']' ∉ u) : ∃ sr, urlsplit u ds = .ok sr := by
  have hsub : ∀ c ∈ (netlocSplit (schemeOrDefault (preprocessUrl u) ds).2).1,
      c ∈ u :=
    fun c hc => preprocessUrl_subset u c
      (schemeOrDefault_snd_subset (preprocessUrl u) ds c
        (netlocSplit_fst_subset _ c hc))
  have hbrk : badBrackets (netlocSplit (schemeOrDefault (preprocessUrl u) ds).2).1 =
      false :=
    badBrackets_of_free (fun hm => h1 (hsub '[' hm)) (fun hm => h2 (hsub ']' hm))
  rw [urlsplit_eq]
  rw [if_neg (by simp [hbrk])]
  exact ⟨_, rfl⟩

theorem urlparse_ok_of_bracket_free {u : List Char} (ds : List Char)
    (h1 : '[' ∉ u) (h2 : ']' ∉ u) : ∃ p, urlparse u ds = .ok p := by
  obtain ⟨sr, hsr⟩ := urlsplit_ok_of_bracket_free ds h1 h2
  exact ⟨_, by rw [urlparse, hsr]; rfl⟩

/-! ## Claim theorems -/

/-- C4: `is_same_domain(url, domain)` is true iff the URL's parsed host
component (`netloc`, including any port) string-equals the stored domain
exactly.  The comparison is case-sensitive, makes no subdomain allowance
and ignores the scheme: `www.example.com` and `EXAMPLE.com` both differ
from `example.com`, a port makes the host compare unequal to the bare
domain, and the scheme plays no role in the comparison. -/
theorem is_same_domain_spec :
    (∀ (url domain : List Char) (p : ParseRes), urlparse url [] = .ok p →
      (is_same_domain url domain = .ok true ↔ p.netloc = domain)) ∧
    is_same_domain "http://www.example.com/x".toList "example.com".toList =
      .ok false ∧
    is_same_domain "http://EXAMPLE.com/".toList "example.com".toList =
      .ok false ∧
    is_same_domain "http://example.com:8080/".toList "example.com".toList =
      .ok false ∧
    is_same_domain "http://example.com:8080/".toList "example.com:8080".toList =
      .ok true ∧
    is_same_domain "https://example.com/a?b#c".toList "example.com".toList =
      .ok true := by
  refine ⟨?_, by rfl, by rfl, by rfl, by rfl, by rfl⟩
  intro url domain p hp
  rw [is_same_domain, hp]
  simp [Except.map]

/-- Witness for C4 at a concrete input. -/
theorem is_same_domain_spec_witness :
    is_same_domain "http://a.b/".toList "a.b".toList = .ok true :=
  (is_same_domain_spec.1 "http://a.b/".toList "a.b".toList
    ⟨"http".toList, "a.b".toList, "/".toList, [], [], []⟩ (by rfl)).mpr
    (by rfl)

/-- C9 counterexample: URL handling is not total — CPython's `urlsplit`
raises `ValueError("Invalid IPv6 URL")` on an unbalanced bracket in the
authority, and the scraper catches no exception around `clean_url` /
`urljoin`, so the crawl would abort on such an href rather than merely
failing the Domain Guard. -/
theorem clean_url_ipv6_error :
    clean_url "http://[".toList = .error "Invalid IPv6 URL" ∧
    urljoin "https://example.test/".toList "http://[".toList =
      .error "Invalid IPv6 URL" := by
  constructor
  · rfl
  · rfl

/-- C9 (amended): URL handling is total on every ASCII bracket-free input,
however malformed — `clean_url`, `urljoin` and `is_same_domain` then
raise no error, and a malformed input merely parses to components that
can fail the Domain Guard and is never enqueued.  Totality does not
extend further: the counterexample's unbalanced bracket raises
`ValueError("Invalid IPv6 URL")` uncaught by the scraper, and the
library's bracketed-host and NFKC netloc validations (outside this
model) reject further bracketed or non-ASCII authorities. -/
theorem url_handling_total :
    (∀ u : List Char, (∀ c ∈ u, c.toNat < 128) → '[' ∉ u → ']' ∉ u →
      ∃ v, clean_url u = .ok v) ∧
    (∀ b u : List Char, (∀ c ∈ b, c.toNat < 128) → (∀ c ∈ u, c.toNat < 128) →
      '[' ∉ b → ']' ∉ b → '[' ∉ u → ']' ∉ u →
      ∃ v, urljoin b u = .ok v) ∧
    (∀ u d : List Char, (∀ c ∈ u, c.toNat < 128) → '[' ∉ u → ']' ∉ u →
      ∃ v, is_same_domain u d = .ok v) := by
  refine ⟨?_, ?_, ?_⟩
  · intro u ha h1 h2
    obtain ⟨p, hp⟩ := urlparse_ok_of_bracket_free [] h1 h2
    exact ⟨_, by rw [clean_url, hp]; rfl⟩
  · intro b u hab hau hb1 hb2 hu1 hu2
    rw [urljoin]
    by_cases hbe : b = []
    · rw [if_pos hbe]
      exact ⟨u, rfl⟩
    · rw [if_neg hbe]
      by_cases hue : u = []
      · rw [if_pos hue]
        exact ⟨b, rfl⟩
      · rw [if_neg hue]
        obtain ⟨pb, hpb⟩ := urlparse_ok_of_bracket_free [] hb1 hb2
        rw [hpb]
        simp only [exceptBind_ok]
        obtain ⟨pu, hpu⟩ := urlparse_ok_of_bracket_free pb.scheme hu1 hu2
        rw [hpu]
        simp only [exceptBind_ok]
        by_cases hc1 : pu.scheme ≠ pb.scheme ∨ ¬ usesRelative.contains pu.scheme
        · rw [if_pos hc1]
          exact ⟨u, rfl⟩
        · rw [if_neg hc1]
          by_cases hc2 : usesNetloc.contains pu.scheme ∧ pu.netloc ≠ []
          · rw [if_pos hc2]
            exact ⟨_, rfl⟩
          · rw [if_neg hc2]
            by_cases hc3 : pu.path = [] ∧ pu.params = []
            · rw [if_pos hc3]
              exact ⟨_, rfl⟩
            · rw [if_neg hc3]
              exact ⟨_, rfl⟩
  · intro u d ha h1 h2
    obtain ⟨p, hp⟩ := urlparse_ok_of_bracket_free [] h1 h2
    exact ⟨_, by rw [is_same_domain, hp]; rfl⟩

/-- Witness for C9 at concrete malformed-but-ASCII inputs: no error is
raised. -/
theorem url_handling_total_witness :
    (∃ v, clean_url "http://h/a b".toList = .ok v) ∧
    (∃ v, urljoin "http://h/a".toList "../x".toList = .ok v) ∧
    (∃ v, is_same_domain ":notaurl".toList "h".toList = .ok v) :=
  ⟨url_handling_total.1 "http://h/a b".toList (by decide) (by decide) (by decide),
   url_handling_total.2.1 "http://h/a".toList "../x".toList (by decide) (by decide)
     (by decide) (by decide) (by decide) (by decide),
   url_handling_total.2.2 ":notaurl".toList "h".toList (by decide) (by decide)
     (by decide)⟩

/-- C6: a dequeued unvisited URL whose fetch fails in transport or returns
any status other than 200 contributes no page record and no links: the
step only marks it visited (and fetched), and the loop continues with the
remaining queue — the crawl does not abort. -/
theorem fetch_failure_nonfatal (net : List Char → FetchOutcome)
    (parse : String → List Node) (restrict : Bool)
    (domain u current : List Char) (rest visited fetched enq : List (List Char))
    (pages : List Page) (fuel : Nat)
    (hc : clean_url u = .ok current) (hv : current ∉ visited)
    (hf : net current = .failure ∨
      ∃ status text, net current = .response status text ∧ status ≠ 200) :
    crawlStep net parse restrict domain ⟨u :: rest, visited, pages, fetched, enq⟩ =
      .ok ⟨rest, current :: visited, pages, fetched ++ [current], enq⟩ ∧
    crawlLoop net parse restrict domain (fuel + 1)
        ⟨u :: rest, visited, pages, fetched, enq⟩ =
      crawlLoop net parse restrict domain fuel
        ⟨rest, current :: visited, pages, fetched ++ [current], enq⟩ := by
  have hstep : crawlStep net parse restrict domain
      ⟨u :: rest, visited, pages, fetched, enq⟩ =
      .ok ⟨rest, current :: visited, pages, fetched ++ [current], enq⟩ := by
    rw [crawlStep]
    dsimp only
    rw [hc]
    dsimp only
    rw [if_neg hv]
    rcases hf with hf | ⟨status, text, hf, hst⟩
    · rw [hf]
    · rw [hf]
      dsimp only
      rw [if_pos hst]
  refine ⟨hstep, ?_⟩
  rw [crawlLoop]
  · rw [hstep]
  · intro v1 p1 f1 e1 hcontra
    injection hcontra with h1
    cases h1

/-- Witness for C6: in the two-page failure scenario the 404 on `/x` is,
skipped without a record while `/y` remains queued. -/
theorem fetch_failure_nonfatal_witness :
    crawlStep site2Net site2Parse true "example.test".toList
      ⟨["https://example.test/x".toList, "https://example.test/y".toList],
       ["https://example.test/".toList],
       [⟨"https://example.test/".toList, "ROOT2"⟩],
       ["https://example.test/".toList],
       ["https://example.test/x".toList, "https://example.test/y".toList]⟩ =
      .ok ⟨["https://example.test/y".toList],
           ["https://example.test/x".toList, "https://example.test/".toList],
           [⟨"https://example.test/".toList, "ROOT2"⟩],
           ["https://example.test/".toList, "https://example.test/x".toList],
           ["https://example.test/x".toList, "https://example.test/y".toList]⟩ :=
  (fetch_failure_nonfatal site2Net site2Parse true "example.test".toList
    "https://example.test/x".toList "https://example.test/x".toList
    ["https://example.test/y".toList] ["https://example.test/".toList]
    ["https://example.test/".toList]
    ["https://example.test/x".toList, "https://example.test/y".toList]
    [⟨"https://example.test/".toList, "ROOT2"⟩] 0
    (by rfl) (by decide)
    (Or.inr ⟨404, "NOTFOUND", by rfl, by decide⟩)).1

/-- C5: the end-to-end scenario.  Crawling `https://example.test/` (whose
navigation bar links to `/a` and `/b`, with `/a` linking back to `/` and
off-domain to `https://other.test/x`) fetches exactly `/`, `/a`, `/b` in
breadth-first order, records them in that order, fetches `/` only once,
and never enqueues `https://other.test/x`. -/
theorem crawl_bfs_scenario :
    scrape_website_cli siteNet siteParse "https://example.test/".toList true 10 =
      some (.ok
        ⟨[],
         ["https://example.test/b".toList, "https://example.test/a".toList,
          "https://example.test/".toList],
         [⟨"https://example.test/".toList, "ROOT"⟩,
          ⟨"https://example.test/a".toList, "PAGEA"⟩,
          ⟨"https://example.test/b".toList, "PAGEB"⟩],
         ["https://example.test/".toList, "https://example.test/a".toList,
          "https://example.test/b".toList],
         ["https://example.test/a".toList, "https://example.test/b".toList]⟩) ∧
    "https://other.test/x".toList ∉
      ["https://example.test/a".toList, "https://example.test/b".toList] ∧
    ("https://example.test/".toList ::
      ["https://example.test/a".toList, "https://example.test/b".toList]).Nodup := by
  refine ⟨by rfl, by decide, by decide⟩

mutual
theorem findAllNode_filter (p : Node → Bool) : (n : Node) →
    findAllNode p n = (subnodes n).filter p
  | .elem t a cs => by
    rw [findAllNode, subnodes, List.filter_cons, findAllNodes_filter p cs]
    cases hp : p (.elem t a cs) <;> simp [hp]

theorem findAllNodes_filter (p : Node → Bool) : (ns : List Node) →
    findAllNodes p ns = (subnodesF ns).filter p
  | [] => rfl
  | n :: ns => by
    rw [findAllNodes, subnodesF, List.filter_append, findAllNode_filter p n,
      findAllNodes_filter p ns]
end

/-- C7: with `restrict_navbar` set, a document without a
`div#navigationbar` yields an empty link sequence (not an error) and
contributes zero frontier entries; with `restrict_navbar` off, every
`a[href]` anywhere in the document (its href value) is a candidate. -/
theorem navbar_extraction :
    (∀ doc : List Node, findFirstNodes isNavDiv doc = none →
      extractLinks true doc = [] ∧
      ∀ (domain current : List Char) (visited queue enq : List (List Char)),
        processLinks domain current visited queue enq (extractLinks true doc) =
          .ok (queue, enq)) ∧
    (∀ (doc : List Node) (n : Node), n ∈ subnodesF doc →
      isAnchorWithHref n = true →
      ((n.attr "href").getD "") ∈ extractLinks false doc) := by
  constructor
  · intro doc hnone
    have he : extractLinks true doc = [] := by
      rw [extractLinks]
      simp only [if_pos]
      rw [hnone]
    refine ⟨he, ?_⟩
    intro domain current visited queue enq
    rw [he]
    rfl
  · intro doc n hmem hpred
    show ((n.attr "href").getD "") ∈ hrefsOf doc
    rw [hrefsOf, findAllNodes_filter]
    exact List.mem_map.mpr ⟨n, List.mem_filter.mpr ⟨hmem, hpred⟩, rfl⟩

/-- Witness for C7: the `/b` page of the test site has no navigation bar
and contributes no links and no queue growth. -/
theorem navbar_extraction_witness :
    extractLinks true pageBDoc = [] ∧
    processLinks "example.test".toList "https://example.test/b".toList []
      [] [] (extractLinks true pageBDoc) = .ok ([], []) :=
  have h := (navbar_extraction.1 pageBDoc (by rfl))
  ⟨h.1, h.2 "example.test".toList "https://example.test/b".toList [] [] []⟩

/-- C1: exactly-once processing.  In every completed run each normalized
URL is passed to the transport at most once, and the final `scraped_pages`
contains at most one record per normalized URL — even though a URL can
occupy several frontier slots, since `visited` is marked at dequeue time. -/
theorem crawl_exactly_once (net : List Char → FetchOutcome)
    (parse : String → List Node) (start_url : List Char) (restrict : Bool)
    (fuel : Nat) (st : CrawlSt)
    (h : scrape_website_cli net parse start_url restrict fuel = some (.ok st)) :
    st.fetched.Nodup ∧ (st.pages.map Page.url).Nodup := by
  rw [scrape_website_cli] at h
  rcases hps : urlparse start_url [] with e | p <;> rw [hps] at h <;>
    try dsimp only at h
  · cases h
  · have hinit : StInv ⟨[start_url], [], [], [], []⟩ := by
      refine ⟨List.nodup_nil, ?_, List.nodup_nil, ?_⟩
      · intro x hx
        cases hx
      · intro x hx
        cases hx
    have hinv := @crawlLoop_inv net parse restrict p.netloc StInv
      (fun a b hs hp => crawlStep_StInv hs hp) fuel ⟨[start_url], [], [], [], []⟩
      st h hinit
    exact ⟨hinv.1, hinv.2.2.1⟩

/-- Witness for C1 on the concrete test crawl. -/
theorem crawl_exactly_once_witness :
    (["https://example.test/".toList, "https://example.test/a".toList,
      "https://example.test/b".toList] : List (List Char)).Nodup ∧
    ([⟨"https://example.test/".toList, "ROOT"⟩,
      ⟨"https://example.test/a".toList, "PAGEA"⟩,
      (⟨"https://example.test/b".toList, "PAGEB"⟩ : Page)].map Page.url).Nodup :=
  crawl_exactly_once siteNet siteParse "https://example.test/".toList true 10
    ⟨[],
     ["https://example.test/b".toList, "https://example.test/a".toList,
      "https://example.test/".toList],
     [⟨"https://example.test/".toList, "ROOT"⟩,
      ⟨"https://example.test/a".toList, "PAGEA"⟩,
      ⟨"https://example.test/b".toList, "PAGEB"⟩],
     ["https://example.test/".toList, "https://example.test/a".toList,
      "https://example.test/b".toList],
     ["https://example.test/a".toList, "https://example.test/b".toList]⟩
    (by rfl)

theorem processLinks_enq {domain current : List Char} {visited : List (List Char)} :
    ∀ (links : List String) (queue enq queue' enq' : List (List Char)),
    processLinks domain current visited queue enq links = .ok (queue', enq') →
    ∀ q ∈ enq', q ∈ enq ∨ is_same_domain q domain = .ok true := by
  intro links
  induction links with
  | nil =>
    intro queue enq queue' enq' h
    rw [processLinks] at h
    injection h with h'
    injection h' with h1 h2
    subst h1
    subst h2
    exact fun q hq => Or.inl hq
  | cons href rest ih =>
    intro queue enq queue' enq' h
    rw [processLinks] at h
    rcases hj : urljoin current href.toList with e | abs <;> rw [hj] at h
    · rw [exceptBind_error] at h
      cases h
    · simp only [exceptBind_ok] at h
      rcases hcl : clean_url abs with e | absC <;> rw [hcl] at h
      · rw [exceptBind_error] at h
        cases h
      · simp only [exceptBind_ok] at h
        rcases hsd : is_same_domain absC domain with e | sd <;> rw [hsd] at h
        · rw [exceptBind_error] at h
          cases h
        · simp only [exceptBind_ok] at h
          by_cases hif : sd = true ∧ absC ∉ visited
          · rw [if_pos hif] at h
            intro q hq
            rcases ih (queue ++ [absC]) (enq ++ [absC]) queue' enq' h q hq with
              hmem | hg
            · rcases List.mem_append.mp hmem with hmem | hmem
              · exact Or.inl hmem
              · right
                have : q = absC := by simpa using hmem
                exact this ▸ (hif.1 ▸ hsd)
            · exact Or.inr hg
          · rw [if_neg hif] at h
            exact ih queue enq queue' enq' h

theorem crawlStep_EnqInv {net : List Char → FetchOutcome}
    {parse : String → List Node} {restrict : Bool} {domain : List Char}
    {st st' : CrawlSt}
    (h : crawlStep net parse restrict domain st = .ok st')
    (hi : ∀ q ∈ st.enqueued, is_same_domain q domain = .ok true) :
    ∀ q ∈ st'.enqueued, is_same_domain q domain = .ok true := by
  rcases crawlStep_cases h with ⟨-, rfl⟩ | ⟨u, rest, current, hq, hcl, hcases⟩
  · exact hi
  rcases hcases with ⟨hv, rfl⟩ | ⟨hv, hcases⟩
  · exact hi
  rcases hcases with ⟨text, hnet, queue', enq', hpl, rfl⟩ | ⟨hfail, rfl⟩
  · intro q hq
    rcases processLinks_enq _ _ _ _ _ hpl q hq with hmem | hg
    · exact hi q hmem
    · exact hg
  · exact hi

/-- C2: domain containment.  Every URL ever appended to the frontier
passes the Domain Guard against the domain derived from the start URL (so
a URL whose normalized host differs from the domain is never enqueued),
and consequently, when that domain is nonempty, every URL ever fetched is
either the normalized seed or parses to exactly that domain. -/
theorem crawl_domain_containment (net : List Char → FetchOutcome)
    (parse : String → List Node) (start_url : List Char) (restrict : Bool)
    (fuel : Nat) (st : CrawlSt) (ps : ParseRes)
    (hps : urlparse start_url [] = .ok ps)
    (h : scrape_website_cli net parse start_url restrict fuel = some (.ok st)) :
    (∀ q ∈ st.enqueued, is_same_domain q ps.netloc = .ok true) ∧
    (ps.netloc ≠ [] → ∀ u ∈ st.fetched,
      clean_url start_url = .ok u ∨
      ∃ pu, urlparse u [] = .ok pu ∧ pu.netloc = ps.netloc) := by
  rw [scrape_website_cli, hps] at h
  dsimp only at h
  constructor
  · exact @crawlLoop_inv net parse restrict ps.netloc
      (fun s => ∀ q ∈ s.enqueued, is_same_domain q ps.netloc = .ok true)
      (fun a b hs hp => crawlStep_EnqInv hs hp) fuel ⟨[start_url], [], [], [], []⟩
      st h (fun q hq => absurd hq (List.not_mem_nil q))
  · intro hd
    have hinit : DomInv ps.netloc start_url ⟨[start_url], [], [], [], []⟩ := by
      refine ⟨?_, ?_, ?_⟩
      · intro q hq
        left
        simpa using hq
      · intro q hq
        cases hq
      · intro x hx
        cases hx
    have hinv := @crawlLoop_inv net parse restrict ps.netloc
      (DomInv ps.netloc start_url)
      (fun a b hs hp => crawlStep_DomInv hd hs hp) fuel
      ⟨[start_url], [], [], [], []⟩ st h hinit
    exact hinv.2.2

/-- Witness for C2 on the concrete test crawl. -/
theorem crawl_domain_containment_witness :
    (∀ q ∈ (["https://example.test/a".toList, "https://example.test/b".toList] :
        List (List Char)),
      is_same_domain q "example.test".toList = .ok true) ∧
    ("example.test".toList ≠ [] →
      ∀ u ∈ (["https://example.test/".toList, "https://example.test/a".toList,
        "https://example.test/b".toList] : List (List Char)),
      clean_url "https://example.test/".toList = .ok u ∨
      ∃ pu, urlparse u [] = .ok pu ∧ pu.netloc = "example.test".toList) :=
  crawl_domain_containment siteNet siteParse "https://example.test/".toList true 10
    ⟨[],
     ["https://example.test/b".toList, "https://example.test/a".toList,
      "https://example.test/".toList],
     [⟨"https://example.test/".toList, "ROOT"⟩,
      ⟨"https://example.test/a".toList, "PAGEA"⟩,
      ⟨"https://example.test/b".toList, "PAGEB"⟩],
     ["https://example.test/".toList, "https://example.test/a".toList,
      "https://example.test/b".toList],
     ["https://example.test/a".toList, "https://example.test/b".toList]⟩
    ⟨"https".toList, "example.test".toList, "/".toList, [], [], []⟩
    (by rfl) (by rfl)

/-- C10: the loop invariant.  Each iteration appends at most one record to
`scraped_pages`; in every completed run every element of `visited` and
every recorded URL is a `clean_url` output (the seed enters the queue raw
but is normalized at dequeue time), and the recorded URLs are a subset of
`visited`. -/
theorem crawl_loop_invariant (net : List Char → FetchOutcome)
    (parse : String → List Node) (start_url domain : List Char)
    (restrict : Bool) (fuel : Nat) (stF : CrawlSt)
    (hrun : scrape_website_cli net parse start_url restrict fuel =
      some (.ok stF)) :
    (∀ st st' : CrawlSt, crawlStep net parse restrict domain st = .ok st' →
      st'.pages = st.pages ∨ ∃ r, st'.pages = st.pages ++ [r]) ∧
    (∀ u ∈ stF.visited, IsCleanOutput u) ∧
    (∀ q ∈ stF.pages, IsCleanOutput (Page.url q) ∧ Page.url q ∈ stF.visited) := by
  refine ⟨?_, ?_⟩
  · intro st st' hs
    rcases crawlStep_cases hs with ⟨-, rfl⟩ | ⟨u, rest, current, hq, hcl, hcases⟩
    · exact Or.inl rfl
    rcases hcases with ⟨hv, rfl⟩ | ⟨hv, hcases⟩
    · exact Or.inl rfl
    rcases hcases with ⟨text, hnet, queue', enq', hpl, rfl⟩ | ⟨hfail, rfl⟩
    · exact Or.inr ⟨⟨current, text⟩, rfl⟩
    · exact Or.inl rfl
  · rw [scrape_website_cli] at hrun
    rcases hps : urlparse start_url [] with e | p <;> rw [hps] at hrun <;>
      try dsimp only at hrun
    · cases hrun
    · have hclean := @crawlLoop_inv net parse restrict p.netloc CleanInv
        (fun a b hs hp => crawlStep_CleanInv hs hp) fuel
        ⟨[start_url], [], [], [], []⟩ stF hrun
        ⟨fun x hx => absurd hx (List.not_mem_nil x),
         fun x hx => absurd hx (List.not_mem_nil x)⟩
      have hst := @crawlLoop_inv net parse restrict p.netloc StInv
        (fun a b hs hp => crawlStep_StInv hs hp) fuel
        ⟨[start_url], [], [], [], []⟩ stF hrun
        ⟨List.nodup_nil, fun x hx => absurd hx (List.not_mem_nil x),
         List.nodup_nil, fun x hx => absurd hx (List.not_mem_nil x)⟩
      exact ⟨hclean.1, fun q hq => ⟨hclean.2 q hq, hst.2.2.2 q hq⟩⟩

/-! ## Idempotence machinery -/

theorem netlocSplit_not_slashes {r : List Char} (h : r.take 2 ≠ ['/', '/']) :
    netlocSplit r = ([], r) := by
  rw [netlocSplit, if_neg h]

theorem badBrackets_append_free {n t : List Char} (h1 : '[' ∉ t) (h2 : ']' ∉ t) :
    badBrackets (n ++ t) = badBrackets n := by
  simp [badBrackets, List.mem_append, h1, h2]

theorem take_two_slashes {r : List Char} (h : r.take 2 = ['/', '/']) :
    ∃ r2, r = '/' :: '/' :: r2 := by
  rcases r with _ | ⟨d1, r1⟩
  · cases h
  rcases r1 with _ | ⟨d2, r2⟩
  · rw [List.take, List.take] at h
    injection h with h1 h2
    cases h2
  rw [List.take, List.take] at h
  injection h with h1 h2
  injection h2 with h2 _
  subst h1
  subst h2
  exact ⟨r2, rfl⟩

theorem urlparse_components {u ds : List Char} {p : ParseRes}
    (h : urlparse u ds = .ok p) :
    p.scheme = (schemeOrDefault (preprocessUrl u) ds).1 ∧
    p.netloc = (netlocSplit (schemeOrDefault (preprocessUrl u) ds).2).1 ∧
    ∀ c ∈ p.path, c ∈ (netlocSplit (schemeOrDefault (preprocessUrl u) ds).2).2 := by
  obtain ⟨sr, hsplit, hf⟩ := exceptMap_ok h
  rw [urlsplit_eq] at hsplit
  by_cases hbrk :
      badBrackets (netlocSplit (schemeOrDefault (preprocessUrl u) ds).2).1 = true
  · rw [if_pos hbrk] at hsplit
    cases hsplit
  · rw [if_neg hbrk] at hsplit
    injection hsplit with h'
    have hsch := congrArg SplitRes.scheme h'
    have hnet := congrArg SplitRes.netloc h'
    have hpath := congrArg SplitRes.path h'
    dsimp only at hsch hnet hpath
    have hsr_path : ∀ c ∈ sr.path,
        c ∈ (netlocSplit (schemeOrDefault (preprocessUrl u) ds).2).2 := by
      intro c hc
      rw [← hpath] at hc
      exact fragSplit_fst_subset _ _ (querySplit_fst_subset _ _ hc)
    by_cases hcond : usesParams.contains sr.scheme = true ∧ ';' ∈ sr.path
    · rw [if_pos hcond] at hf
      rcases hsp : splitparams sr.path with ⟨pa, prm⟩
      rw [hsp] at hf
      have e1 := congrArg ParseRes.scheme hf
      have e2 := congrArg ParseRes.netloc hf
      have e3 := congrArg ParseRes.path hf
      dsimp only at e1 e2 e3
      refine ⟨by rw [← e1, hsch], by rw [← e2, hnet], ?_⟩
      intro c hc
      rw [← e3] at hc
      have hpa : pa = (splitparams sr.path).1 := by rw [hsp]
      rw [hpa] at hc
      exact hsr_path c (splitparams_subset _ hc)
    · rw [if_neg hcond] at hf
      have e1 := congrArg ParseRes.scheme hf
      have e2 := congrArg ParseRes.netloc hf
      have e3 := congrArg ParseRes.path hf
      dsimp only at e1 e2 e3
      refine ⟨by rw [← e1, hsch], by rw [← e2, hnet], ?_⟩
      intro c hc
      rw [← e3] at hc
      exact hsr_path c hc

/-- Reparse equation for a clean form with a nonempty scheme. -/
theorem clean_reparse_eq {p : ParseRes} (hp : ParseShape p) (hs : p.scheme ≠ []) :
    urlparse (cleanOf p) [] =
      if badBrackets ((p.netloc ++ p.path).takeWhile (fun c => !netlocDelim c)) then
        .error "Invalid IPv6 URL"
      else
        .ok ⟨p.scheme, (p.netloc ++ p.path).takeWhile (fun c => !netlocDelim c),
             (p.netloc ++ p.path).dropWhile (fun c => !netlocDelim c), [], [], []⟩ := by
  have hvs : validSchemeStr p.scheme = true ∧
      p.scheme.map Char.toLower = p.scheme := by
    rcases hp.scheme_ok with h0 | h0
    · exact absurd h0 hs
    · exact h0
  have hnn : '#' ∉ p.netloc ++ p.path := by
    intro hm
    rcases List.mem_append.mp hm with hm | hm
    · have := hp.netloc_ok _ hm
      simp [netlocDelim] at this
    · exact hp.path_hash hm
  have hqq : '?' ∉ p.netloc ++ p.path := by
    intro hm
    rcases List.mem_append.mp hm with hm | hm
    · have := hp.netloc_ok _ hm
      simp [netlocDelim] at this
    · exact hp.path_query hm
  have hdw : (p.netloc ++ p.path).dropWhile (fun c => !netlocDelim c) =
      p.path.dropWhile (fun c => !netlocDelim c) := by
    apply List.dropWhile_append_of_pos
    intro a ha
    simp [hp.netloc_ok a ha]
  have hparams : usesParams.contains (p.scheme.map Char.toLower) = true →
      ';' ∈ (p.netloc ++ p.path).dropWhile (fun c => !netlocDelim c) →
      splitparams ((p.netloc ++ p.path).dropWhile (fun c => !netlocDelim c)) =
        ((p.netloc ++ p.path).dropWhile (fun c => !netlocDelim c), []) := by
    rw [hdw, hvs.2]
    intro hup hsemi
    apply splitparams_noop
    apply params_decomp_dropWhile hp.path_hash hp.path_query
    exact hp.params_ok hup (List.dropWhile_subset _ hsemi)
  have hrep := urlparse_reparse hvs.1 (hp.clean_safe) hnn hqq hparams
  rw [cleanOf_eq, hrep, hvs.2]

/-- C8: idempotence of normalization.  For every syntactically valid
absolute URL string — formalized by `validAbsUrl`: wellformed scheme and
ASCII bracket-free authority and remainder, the RFC 3986 shape on which
the embedded parser agrees with the library exactly — applying
`clean_url` to a `clean_url` output returns it unchanged.  The ASCII
restriction is part of URL syntax and real: on a non-ASCII non-URL input
such as `http:℀` the library itself is not idempotent (its first parse
succeeds and its reparse trips the NFKC netloc check). -/
theorem clean_url_idempotent (u c : List Char) (hu : validAbsUrl u = true)
    (hc : clean_url u = .ok c) : clean_url c = .ok c := by
  rcases hsp : splitFirst ':' u with _ | ⟨s0, r⟩
  · rw [validAbsUrl, hsp] at hu
    cases hu
  · rw [validAbsUrl, hsp] at hu
    dsimp only at hu
    rw [Bool.and_eq_true] at hu
    obtain ⟨hvs0, hu2⟩ := hu
    obtain ⟨hueq, -⟩ := splitFirst_eq_some hsp
    obtain ⟨c0, cs0, hsc, halpha, hall⟩ := validSchemeStr_head_alpha hvs0
    have not_unsafe_of_not_c0 : ∀ x : Char, c0OrSpace x = false →
        unsafeByte x = false := by
      intro x h1
      cases hu3 : unsafeByte x
      · rfl
      · rw [unsafe_c0 hu3] at h1
        cases h1
    have urlChar_not_unsafe : ∀ x : Char, urlChar x = true →
        unsafeByte x = false := by
      intro x hx
      rw [urlChar, Bool.and_eq_true, Bool.and_eq_true] at hx
      exact not_unsafe_of_not_c0 x (by simpa using hx.1.1)
    have hr_safe : ∀ x ∈ r, unsafeByte x = false := by
      intro x hx
      by_cases h2 : r.take 2 = ['/', '/']
      · rw [if_pos h2] at hu2
        obtain ⟨r2, rfl⟩ := take_two_slashes h2
        simp only [Bool.and_eq_true] at hu2
        obtain ⟨⟨⟨⟨hbrk2, hnall⟩, hrall⟩, -⟩, -⟩ := hu2
        rcases List.mem_cons.mp hx with rfl | hx
        · decide
        rcases List.mem_cons.mp hx with rfl | hx
        · decide
        have hx2 : x ∈ r2.takeWhile (fun c => !netlocDelim c) ∨
            x ∈ r2.dropWhile (fun c => !netlocDelim c) := by
          rw [← List.mem_append, List.takeWhile_append_dropWhile]
          exact hx
        rcases hx2 with hx2 | hx2
        · exact not_unsafe_of_not_c0 x (by simpa using List.all_eq_true.mp hnall x hx2)
        · exact urlChar_not_unsafe x (List.all_eq_true.mp hrall x hx2)
      · rw [if_neg h2] at hu2
        rw [Bool.and_eq_true] at hu2
        exact urlChar_not_unsafe x (List.all_eq_true.mp hu2.1 x hx)
    have hpre : preprocessUrl u = u := by
      rw [hueq]
      apply preprocessUrl_eq_self
      · intro ch hch
        rw [hsc] at hch
        simp at hch
        subst hch
        have := asciiAlpha_iff.mp halpha
        simp [c0OrSpace]
        omega
      · intro ch hch
        rcases List.mem_append.mp hch with hch | hch
        · rw [hsc] at hch
          exact schemeChar_not_unsafe (List.all_eq_true.mp hall ch hch)
        · rcases List.mem_cons.mp hch with rfl | hch
          · decide
          · exact hr_safe ch hch
    have hss : schemeSplit u = some (s0.map Char.toLower, r) := by
      rw [hueq]
      exact schemeSplit_append hvs0
    obtain ⟨p0, hp0, rfl⟩ := clean_url_inv hc
    have hshape := urlparse_shape hp0
    obtain ⟨hcs, hcn, hcp⟩ := urlparse_components hp0
    rw [hpre, schemeOrDefault_some hss] at hcs hcn hcp
    dsimp only at hcs hcn hcp
    have hs0ne : p0.scheme ≠ [] := by
      rw [hcs, hsc]
      simp
    have hpath_free : ∀ x ∈ p0.path, x ≠ '[' ∧ x ≠ ']' := by
      intro x hx
      have hx2 := hcp x hx
      by_cases h2 : r.take 2 = ['/', '/']
      · rw [if_pos h2] at hu2
        obtain ⟨r2, rfl⟩ := take_two_slashes h2
        simp only [Bool.and_eq_true] at hu2
        obtain ⟨⟨⟨⟨hbrk2, hnall⟩, hrall⟩, -⟩, -⟩ := hu2
        rw [netlocSplit_slashes] at hx2
        have := List.all_eq_true.mp hrall x hx2
        rw [urlChar, Bool.and_eq_true, Bool.and_eq_true] at this
        exact ⟨by simpa using this.1.2, by simpa using this.2⟩
      · rw [netlocSplit_not_slashes h2] at hx2
        rw [if_neg h2] at hu2
        rw [Bool.and_eq_true] at hu2
        have := List.all_eq_true.mp hu2.1 x hx2
        rw [urlChar, Bool.and_eq_true, Bool.and_eq_true] at this
        exact ⟨by simpa using this.1.2, by simpa using this.2⟩
    have hbrkF : badBrackets
        ((p0.netloc ++ p0.path).takeWhile (fun c => !netlocDelim c)) = false := by
      rw [List.takeWhile_append_of_pos (by
        intro a ha
        simp [hshape.netloc_ok a ha])]
      rw [badBrackets_append_free]
      · exact hshape.netloc_brk
      · intro hm
        have := hpath_free '[' (List.takeWhile_subset _ hm)
        exact this.1 rfl
      · intro hm
        have := hpath_free ']' (List.takeWhile_subset _ hm)
        exact this.2 rfl
    have hrep := clean_reparse_eq hshape hs0ne
    rw [hbrkF] at hrep
    rw [if_neg (by simp)] at hrep
    rw [clean_url, hrep]
    simp only [Except.map]
    rw [List.takeWhile_append_dropWhile, ← cleanOf_eq]

/-- Witness for C8 at a concrete input: normalizing the already-normalized
form of `https://Ex.test/a;b?q#f` returns it unchanged. -/
theorem clean_url_idempotent_witness :
    clean_url "https://Ex.test/a;b?q#f".toList = .ok "https://Ex.test/a".toList ∧
    clean_url "https://Ex.test/a".toList = .ok "https://Ex.test/a".toList :=
  ⟨by rfl,
   clean_url_idempotent "https://Ex.test/a;b?q#f".toList
     "https://Ex.test/a".toList (by rfl) (by rfl)⟩

/-! ## Output shape of clean_url -/

theorem take_one_slash {r : List Char} (h : r.take 1 = ['/']) :
    ∃ t, r = '/' :: t := by
  rcases r with _ | ⟨d, t⟩
  · cases h
  · rw [List.take] at h
    injection h with h1 _
    subst h1
    exact ⟨t, rfl⟩

theorem urlsplit_build {s n r2 : List Char}
    (hs : validSchemeStr s = true)
    (hn : ∀ c ∈ n, netlocDelim c = false)
    (hsafe : ∀ c ∈ n ++ r2, unsafeByte c = false)
    (hr2 : r2.take 1 = ['/']) :
    urlsplit (s ++ ':' :: '/' :: '/' :: (n ++ r2)) [] =
      if badBrackets n then .error "Invalid IPv6 URL"
      else .ok ⟨s.map Char.toLower, n, (querySplit (fragSplit r2).1).1,
                (querySplit (fragSplit r2).1).2, (fragSplit r2).2⟩ := by
  obtain ⟨c0, cs0, hsc, halpha, hall⟩ := validSchemeStr_head_alpha hs
  have hpre : preprocessUrl (s ++ ':' :: '/' :: '/' :: (n ++ r2)) =
      s ++ ':' :: '/' :: '/' :: (n ++ r2) := by
    apply preprocessUrl_eq_self
    · intro ch hch
      rw [hsc] at hch
      simp at hch
      subst hch
      have := asciiAlpha_iff.mp halpha
      simp [c0OrSpace]
      omega
    · intro ch hch
      rcases List.mem_append.mp hch with hch | hch
      · rw [hsc] at hch
        exact schemeChar_not_unsafe (List.all_eq_true.mp hall ch hch)
      · rcases List.mem_cons.mp hch with rfl | hch
        · decide
        · rcases List.mem_cons.mp hch with rfl | hch
          · decide
          · rcases List.mem_cons.mp hch with rfl | hch
            · decide
            · exact hsafe ch hch
  have hss : schemeSplit (s ++ ':' :: '/' :: '/' :: (n ++ r2)) =
      some (s.map Char.toLower, '/' :: '/' :: (n ++ r2)) := schemeSplit_append hs
  obtain ⟨t, rfl⟩ := take_one_slash hr2
  have htake : (n ++ '/' :: t).takeWhile (fun c => !netlocDelim c) = n := by
    rw [List.takeWhile_append_of_pos (fun a ha => by simp [hn a ha])]
    rw [List.takeWhile_cons_of_neg (by decide)]
    simp
  have hdrop : (n ++ '/' :: t).dropWhile (fun c => !netlocDelim c) = '/' :: t := by
    rw [List.dropWhile_append_of_pos (fun a ha => by simp [hn a ha])]
    rw [List.dropWhile_cons_of_neg (by decide)]
  rw [urlsplit_eq]
  simp only [hpre, schemeOrDefault_some hss, netlocSplit_slashes, htake, hdrop]

theorem take_one_slash_append {pa : List Char} (t : List Char)
    (h : pa.take 1 = ['/']) : (pa ++ t).take 1 = ['/'] := by
  obtain ⟨pt, rfl⟩ := take_one_slash h
  rfl

/-- The path component produced by the fragment and query stages on a
delimiter-free path followed by an optional query and fragment. -/
theorem stage_of_qf {pa : List Char} (oq of : Option (List Char))
    (hpa_h : '#' ∉ pa) (hpa_q : '?' ∉ pa)
    (hq : ∀ x, oq = some x → '#' ∉ x) :
    (querySplit (fragSplit (pa ++ qfSuffix oq of)).1).1 = pa := by
  rcases oq with _ | q <;> rcases of with _ | f
  · simp only [qfSuffix, List.append_nil, fragSplit_no_hash hpa_h,
      querySplit_no_q hpa_q]
  · simp only [qfSuffix, fragSplit, splitFirst_append f hpa_h,
      querySplit_no_q hpa_q]
  · have hq2 : '#' ∉ q := hq q rfl
    have hnoh : '#' ∉ pa ++ '?' :: q := by
      intro hm
      rcases List.mem_append.mp hm with hm | hm
      · exact hpa_h hm
      · rcases List.mem_cons.mp hm with he | hm
        · exact absurd he (by decide)
        · exact hq2 hm
    simp only [qfSuffix, fragSplit_no_hash hnoh, querySplit,
      splitFirst_append q hpa_q]
  · have hq2 : '#' ∉ q := hq q rfl
    have hnoh : '#' ∉ pa ++ '?' :: q := by
      intro hm
      rcases List.mem_append.mp hm with hm | hm
      · exact hpa_h hm
      · rcases List.mem_cons.mp hm with he | hm
        · exact absurd he (by decide)
        · exact hq2 hm
    have hsf : splitFirst '#' (pa ++ ('?' :: q ++ '#' :: f)) =
        some (pa ++ '?' :: q, f) := by
      have hassoc : pa ++ ('?' :: q ++ '#' :: f) = (pa ++ '?' :: q) ++ '#' :: f := by
        simp
      rw [hassoc]
      exact splitFirst_append f hnoh
    simp only [qfSuffix, fragSplit, hsf, querySplit, splitFirst_append q hpa_q]

/-- Evaluation of `clean_url` on a built absolute URL whose path keeps no
params. -/
theorem clean_url_build {s n r2 pa : List Char}
    (hs : validSchemeStr s = true)
    (hn : ∀ c ∈ n, netlocDelim c = false)
    (hbrk : badBrackets n = false)
    (hsafe : ∀ c ∈ n ++ r2, unsafeByte c = false)
    (hr2 : r2.take 1 = ['/'])
    (hpath : (querySplit (fragSplit r2).1).1 = pa)
    (hnop : ¬ (usesParams.contains (s.map Char.toLower) = true ∧ ';' ∈ pa)) :
    clean_url (s ++ ':' :: '/' :: '/' :: (n ++ r2)) =
      .ok (s.map Char.toLower ++ ':' :: '/' :: '/' :: (n ++ pa)) := by
  have hb := urlsplit_build hs hn hsafe hr2
  rw [clean_url, urlparse, hb, if_neg (by simp [hbrk])]
  simp only [Except.map, hpath]
  rw [if_neg hnop]

/-- Evaluation of `clean_url` on a built absolute URL whose path carries a
params suffix that `splitparams` removes. -/
theorem clean_url_build_params {s n r2 p0 pa prm : List Char}
    (hs : validSchemeStr s = true)
    (hn : ∀ c ∈ n, netlocDelim c = false)
    (hbrk : badBrackets n = false)
    (hsafe : ∀ c ∈ n ++ r2, unsafeByte c = false)
    (hr2 : r2.take 1 = ['/'])
    (hpath : (querySplit (fragSplit r2).1).1 = p0)
    (hup : usesParams.contains (s.map Char.toLower) = true)
    (hsemi : ';' ∈ p0)
    (hpp : splitparams p0 = (pa, prm)) :
    clean_url (s ++ ':' :: '/' :: '/' :: (n ++ r2)) =
      .ok (s.map Char.toLower ++ ':' :: '/' :: '/' :: (n ++ pa)) := by
  have hb := urlsplit_build hs hn hsafe hr2
  rw [clean_url, urlparse, hb, if_neg (by simp [hbrk])]
  simp only [Except.map, hpath]
  rw [if_pos ⟨hup, hsemi⟩]
  simp only [hpp]

/-- C3 counterexample: `clean_url` does not return exactly
scheme + `://` + host + path with only query and fragment removed.  The
input `http://h/a;x` has no query and no fragment, yet its normalization
drops the `;x` params suffix of the last path segment. -/
theorem clean_url_params_counterexample :
    clean_url "http://h/a;x".toList = .ok "http://h/a".toList ∧
    "http://h/a".toList ≠ "http://h/a;x".toList ∧
    '?' ∉ "http://h/a;x".toList ∧ '#' ∉ "http://h/a;x".toList := by
  exact ⟨by rfl, by decide, by decide, by decide⟩

/-- C3 (amended): output shape of the normalizer.  For a syntactically
valid absolute URL — lowercase-wellformed scheme, ASCII bracket-free
host[:port], delimiter-free path, optional query and optional fragment —
the output is the lowercased scheme + `://` + host + path with the query
string and the fragment (present or not) removed and no trailing-slash
canonicalization; in addition — as the counterexample forces — for a
scheme in `uses_params` the `;params` suffix of the last path segment is
removed as well.  Consequently any two such URLs differing only in query
string or fragment normalize to the identical string.  The ASCII
restriction on the host keeps the statement on the fragment where the
embedded parser agrees exactly with the library, whose NFKC netloc check
and bracketed-host check accept such authorities unchanged. -/
theorem clean_url_shape :
    (∀ (s n pa : List Char) (oq of : Option (List Char)),
      validSchemeStr s = true →
      (∀ c ∈ n, netlocDelim c = false) →
      (∀ c ∈ n, c.toNat < 128 ∧ c ≠ '[' ∧ c ≠ ']') →
      (∀ c ∈ n ++ (pa ++ qfSuffix oq of), unsafeByte c = false) →
      pa.take 1 = ['/'] → '#' ∉ pa → '?' ∉ pa → ';' ∉ pa →
      (∀ x, oq = some x → '#' ∉ x) →
      clean_url (s ++ ':' :: '/' :: '/' :: (n ++ (pa ++ qfSuffix oq of))) =
        .ok (s.map Char.toLower ++ ':' :: '/' :: '/' :: (n ++ pa))) ∧
    (∀ (s n a b prm : List Char) (oq of : Option (List Char)),
      validSchemeStr s = true →
      (∀ c ∈ n, netlocDelim c = false) →
      (∀ c ∈ n, c.toNat < 128 ∧ c ≠ '[' ∧ c ≠ ']') →
      (∀ c ∈ n ++ (((a ++ '/' :: b) ++ ';' :: prm) ++ qfSuffix oq of),
        unsafeByte c = false) →
      (a ++ '/' :: b).take 1 = ['/'] →
      '#' ∉ a ++ '/' :: b → '?' ∉ a ++ '/' :: b → ';' ∉ b → '/' ∉ b →
      '#' ∉ prm → '?' ∉ prm → '/' ∉ prm →
      (∀ x, oq = some x → '#' ∉ x) →
      usesParams.contains (s.map Char.toLower) = true →
      clean_url (s ++ ':' :: '/' :: '/' ::
          (n ++ (((a ++ '/' :: b) ++ ';' :: prm) ++ qfSuffix oq of))) =
        .ok (s.map Char.toLower ++ ':' :: '/' :: '/' :: (n ++ (a ++ '/' :: b)))) ∧
    (∀ (s n pa : List Char) (oq of oq2 of2 : Option (List Char)),
      validSchemeStr s = true →
      (∀ c ∈ n, netlocDelim c = false) →
      (∀ c ∈ n, c.toNat < 128 ∧ c ≠ '[' ∧ c ≠ ']') →
      (∀ c ∈ n ++ (pa ++ qfSuffix oq of), unsafeByte c = false) →
      (∀ c ∈ n ++ (pa ++ qfSuffix oq2 of2), unsafeByte c = false) →
      pa.take 1 = ['/'] → '#' ∉ pa → '?' ∉ pa → ';' ∉ pa →
      (∀ x, oq = some x → '#' ∉ x) → (∀ x, oq2 = some x → '#' ∉ x) →
      clean_url (s ++ ':' :: '/' :: '/' :: (n ++ (pa ++ qfSuffix oq of))) =
        clean_url (s ++ ':' :: '/' :: '/' :: (n ++ (pa ++ qfSuffix oq2 of2)))) := by
  have part1 : ∀ (s n pa : List Char) (oq of : Option (List Char)),
      validSchemeStr s = true →
      (∀ c ∈ n, netlocDelim c = false) →
      (∀ c ∈ n, c.toNat < 128 ∧ c ≠ '[' ∧ c ≠ ']') →
      (∀ c ∈ n ++ (pa ++ qfSuffix oq of), unsafeByte c = false) →
      pa.take 1 = ['/'] → '#' ∉ pa → '?' ∉ pa → ';' ∉ pa →
      (∀ x, oq = some x → '#' ∉ x) →
      clean_url (s ++ ':' :: '/' :: '/' :: (n ++ (pa ++ qfSuffix oq of))) =
        .ok (s.map Char.toLower ++ ':' :: '/' :: '/' :: (n ++ pa)) := by
    intro s n pa oq of hs hn hna hsafe hpa1 hpah hpaq hpas hoq
    have hbrk : badBrackets n = false :=
      badBrackets_of_free (fun hm => (hna '[' hm).2.1 rfl)
        (fun hm => (hna ']' hm).2.2 rfl)
    exact clean_url_build hs hn hbrk hsafe (take_one_slash_append _ hpa1)
      (stage_of_qf oq of hpah hpaq hoq) (fun hcontra => hpas hcontra.2)
  refine ⟨part1, ?_, ?_⟩
  · intro s n a b prm oq of hs hn hna hsafe hpa1 hpah hpaq hsb hfb hprmh hprmq
      hprmf hoq hup
    have hbrk : badBrackets n = false :=
      badBrackets_of_free (fun hm => (hna '[' hm).2.1 rfl)
        (fun hm => (hna ']' hm).2.2 rfl)
    have hPh : '#' ∉ (a ++ '/' :: b) ++ ';' :: prm := by
      intro hm
      rcases List.mem_append.mp hm with hm | hm
      · exact hpah hm
      · rcases List.mem_cons.mp hm with he | hm
        · exact absurd he (by decide)
        · exact hprmh hm
    have hPq : '?' ∉ (a ++ '/' :: b) ++ ';' :: prm := by
      intro hm
      rcases List.mem_append.mp hm with hm | hm
      · exact hpaq hm
      · rcases List.mem_cons.mp hm with he | hm
        · exact absurd he (by decide)
        · exact hprmq hm
    have hP1 : ((a ++ '/' :: b) ++ ';' :: prm).take 1 = ['/'] :=
      take_one_slash_append _ hpa1
    have hnf : '/' ∉ b ++ ';' :: prm := by
      intro hm
      rcases List.mem_append.mp hm with hm | hm
      · exact hfb hm
      · rcases List.mem_cons.mp hm with he | hm
        · exact absurd he (by decide)
        · exact hprmf hm
    have hpp : splitparams ((a ++ '/' :: b) ++ ';' :: prm) =
        (a ++ '/' :: b, prm) := by
      have hre : (a ++ '/' :: b) ++ ';' :: prm = a ++ '/' :: (b ++ ';' :: prm) := by
        simp
      rw [hre]
      simp only [splitparams, splitLast_append a hnf, splitFirst_append prm hsb]
    exact clean_url_build_params hs hn hbrk hsafe (take_one_slash_append _ hP1)
      (stage_of_qf oq of hPh hPq hoq) hup (by simp) hpp
  · intro s n pa oq of oq2 of2 hs hn hna hsafe hsafe2 hpa1 hpah hpaq hpas hoq hoq2
    rw [part1 s n pa oq of hs hn hna hsafe hpa1 hpah hpaq hpas hoq,
      part1 s n pa oq2 of2 hs hn hna hsafe2 hpa1 hpah hpaq hpas hoq2]

/-- Witness for C3 at concrete inputs: query, fragment and the `;params`
suffix of the last path segment are removed, and a query/fragment-free
URL keeps its path unchanged. -/
theorem clean_url_shape_witness :
    clean_url "http://Host.test/p/x;par?q=1#frag".toList =
      .ok "http://Host.test/p/x".toList ∧
    clean_url "https://ex.test/a".toList = .ok "https://ex.test/a".toList := by
  constructor
  · have h := clean_url_shape.2.1 "http".toList "Host.test".toList "/p".toList
        "x".toList "par".toList (some "q=1".toList) (some "frag".toList)
        (by decide) (by decide) (by decide) (by decide) (by rfl) (by decide)
        (by decide) (by decide) (by decide) (by decide) (by decide) (by decide)
        (by intro x hx; cases hx; decide) (by rfl)
    have he : "http://Host.test/p/x;par?q=1#frag".toList =
        "http".toList ++ ':' :: '/' :: '/' :: ("Host.test".toList ++
          ((("/p".toList ++ '/' :: "x".toList) ++ ';' :: "par".toList) ++
            qfSuffix (some "q=1".toList) (some "frag".toList))) := by decide
    have he2 : "http".toList.map Char.toLower ++ ':' :: '/' :: '/' ::
        ("Host.test".toList ++ ("/p".toList ++ '/' :: "x".toList)) =
        "http://Host.test/p/x".toList := by decide
    rw [he, h, he2]
  · have h := clean_url_shape.1 "https".toList "ex.test".toList "/a".toList
        none none (by decide) (by decide) (by decide) (by decide) (by rfl)
        (by decide) (by decide) (by decide) (by intro x hx; cases hx)
    have he : "https://ex.test/a".toList = "https".toList ++ ':' :: '/' :: '/' ::
        ("ex.test".toList ++ ("/a".toList ++ qfSuffix none none)) := by decide
    have he2 : "https".toList.map Char.toLower ++ ':' :: '/' :: '/' ::
        ("ex.test".toList ++ "/a".toList) = "https://ex.test/a".toList := by decide
    calc clean_url "https://ex.test/a".toList
        = clean_url ("https".toList ++ ':' :: '/' :: '/' ::
            ("ex.test".toList ++ ("/a".toList ++ qfSuffix none none))) := by rw [he]
      _ = .ok ("https".toList.map Char.toLower ++ ':' :: '/' :: '/' ::
            ("ex.test".toList ++ "/a".toList)) := h
      _ = .ok "https://ex.test/a".toList := by rw [he2]

/-- Witness for C10 on the concrete test crawl: each visited URL of the
final state is a `clean_url` output. -/
theorem crawl_loop_invariant_witness :
    IsCleanOutput "https://example.test/".toList ∧
    IsCleanOutput "https://example.test/a".toList ∧
    IsCleanOutput "https://example.test/b".toList :=
  have h := (crawl_loop_invariant siteNet siteParse "https://example.test/".toList
    "example.test".toList true 10
    ⟨[],
     ["https://example.test/b".toList, "https://example.test/a".toList,
      "https://example.test/".toList],
     [⟨"https://example.test/".toList, "ROOT"⟩,
      ⟨"https://example.test/a".toList, "PAGEA"⟩,
      ⟨"https://example.test/b".toList, "PAGEB"⟩],
     ["https://example.test/".toList, "https://example.test/a".toList,
      "https://example.test/b".toList],
     ["https://example.test/a".toList, "https://example.test/b".toList]⟩
    (by rfl)).2.1
  ⟨h _ (by simp), h _ (by simp), h _ (by simp)⟩

end Scraper
